import Mathlib

/-!
Verification development for the sixdegreesofhackclub repository.

This file gives a shallow embedding of the core of the crawler and graph
engine and proves / refutes the specification claims about it:

* `ChannelGraph` with `findPath` (BFS shortest path with an optional hop
  bound) and `findAllPathsWithinHops` (bounded reachability), from
  `graph.js`;
* the per-channel mention scanner (dedup set, self-mention filter) from
  `index.js` (`scanChannelMessages`);
* the JSONL edge-record codec (`JSON.stringify` on the connection object /
  `JSON.parse` on a stored line), from `appendConnections` and `loadData`;
* the checkpoint store and resume-index computation plus a file-effect
  trace model of the crawl, from `index.js` / `src/bot/*` / `src/cli/*`.

JavaScript `Map`s are modelled as association lists in insertion order,
`Set`s as lists in insertion order with membership lookup, and the BFS
while-loops as fuel-indexed structural recursions (the fuel
`totalConnections + 1` is provably sufficient: each loop iteration
dequeues one path and every enqueue marks a previously unvisited node).
-/

namespace SixDeg

/-- JS `Map.get`: first (and only) binding of the key, if any. -/
def mapGet {α : Type} (m : List (String × α)) (k : String) : Option α :=
  (m.find? (fun kv => kv.1 = k)).map (·.2)

/-- JS `Map.set`: overwrite the binding in place if the key is present,
otherwise append the new binding (JS `Map`s keep insertion order). -/
def mapSet {α : Type} (m : List (String × α)) (k : String) (v : α) : List (String × α) :=
  if (m.find? (fun kv => kv.1 = k)).isSome then
    m.map (fun kv => if kv.1 = k then (k, v) else kv)
  else
    m ++ [(k, v)]

/-- One element of a channel's `connections` array:
`{to, messageLink, messageDate}` (graph.js `addConnection`); `to` is a
reserved Lean token, so the field is `toC`. -/
structure Connection where
  toC : String
  messageLink : String
  messageDate : String
deriving DecidableEq, Repr

/-- A value in the `channels` map: `{name, connections}` (graph.js). -/
structure ChannelData where
  name : String
  connections : List Connection
deriving DecidableEq, Repr

/-- The `ChannelGraph` class state: `channels` and `nameToId` maps. -/
structure ChannelGraph where
  channels : List (String × ChannelData)
  nameToId : List (String × String)
deriving DecidableEq, Repr

def ChannelGraph.empty : ChannelGraph := ⟨[], []⟩

/-- graph.js `addConnection(from, to, fromName, toName, messageLink, messageDate)`.
`from` is a Lean keyword, so the parameter is called `fromId`. -/
def ChannelGraph.addConnection (g : ChannelGraph)
    (fromId toId fromName toName messageLink messageDate : String) : ChannelGraph :=
  let g1 :=
    if (mapGet g.channels fromId).isSome then g
    else { channels := mapSet g.channels fromId ⟨fromName, []⟩,
           nameToId := mapSet g.nameToId fromName.toLower fromId }
  let g2 :=
    if (mapGet g1.channels toId).isSome then g1
    else { channels := mapSet g1.channels toId ⟨toName, []⟩,
           nameToId := mapSet g1.nameToId toName.toLower toId }
  match mapGet g2.channels fromId with
  | some cd =>
      { g2 with channels :=
          (mapSet g2.channels fromId
            ⟨cd.name, cd.connections ++ [⟨toId, messageLink, messageDate⟩]⟩) }
  | none => g2

/-- graph.js `getChannelName(id)`: `this.channels.get(id)?.name || id`
(note `||`: an empty-string name also falls back to the id). -/
def ChannelGraph.getChannelName (g : ChannelGraph) (id : String) : String :=
  match mapGet g.channels id with
  | some cd => if cd.name = "" then id else cd.name
  | none => id

/-- One element of a result's `links` array (graph.js `buildLinks`):
`{from, to, messageLink, messageDate}` where `from`/`to` hold channel
display names.  `from` is a Lean keyword, so the fields are `fromC`/`toC`. -/
structure LinkInfo where
  fromC : String
  toC : String
  messageLink : String
  messageDate : String
deriving DecidableEq, Repr

/-- graph.js `buildLinks(path)`: for each consecutive pair, find the first
recorded connection between them (skipping pairs with no record). -/
def ChannelGraph.buildLinks (g : ChannelGraph) : List String → List LinkInfo
  | a :: b :: rest =>
      (match (mapGet g.channels a).bind (fun cd => cd.connections.find? (fun c => c.toC = b)) with
       | some c => [⟨g.getChannelName a, g.getChannelName b, c.messageLink, c.messageDate⟩]
       | none => []) ++ g.buildLinks (b :: rest)
  | _ => []

/-- A `findPath` / `findAllPathsWithinHops` result entry: `{path, links}`. -/
structure PathResult where
  path : List String
  links : List LinkInfo
deriving DecidableEq, Repr

/-- graph.js `getTotalConnections()`. -/
def ChannelGraph.getTotalConnections (g : ChannelGraph) : Nat :=
  (g.channels.map (fun kv => kv.2.connections.length)).sum

/-- graph.js `getTotalChannels()`. -/
def ChannelGraph.getTotalChannels (g : ChannelGraph) : Nat :=
  g.channels.length

/-- All `to`-endpoints of connections stored anywhere in the graph
(with multiplicity); only these ids can ever be enqueued by the BFS. -/
def targets (g : ChannelGraph) : List String :=
  g.channels.flatMap (fun kv => kv.2.connections.map (fun c => c.toC))

/-- `path.length > maxHops` for `maxHops : Option Nat`
(`none` models the JS default `Infinity`). -/
def hopsExceeded (len : Nat) (maxHops : Option Nat) : Bool :=
  match maxHops with
  | none => false
  | some k => decide (k < len)

/-- Outcome of scanning one dequeued path's connection list in `findPath`. -/
inductive ExpandOut where
  | found (fullPath : List String)
  | cont (queue : List (List String)) (visited : List String)
deriving Repr

/-- The inner `for (const connection of channelData.connections)` loop of
graph.js `findPath`: return on the first connection hitting `endId`,
otherwise enqueue each not-yet-visited target (marking it visited). -/
def expandConns (endId : String) (path : List String) :
    List Connection → List (List String) → List String → ExpandOut
  | [], queue, visited => .cont queue visited
  | c :: cs, queue, visited =>
      if c.toC = endId then .found (path ++ [endId])
      else if c.toC ∈ visited then expandConns endId path cs queue visited
      else expandConns endId path cs (queue ++ [path ++ [c.toC]]) (visited ++ [c.toC])

/-- The `while (queue.length > 0)` loop of graph.js `findPath`, indexed by
fuel.  Result `none` means "fuel exhausted" (shown unreachable for
`fuel = totalConnections + 1`); `some none` is the JS `return null`. -/
def findPathAux (g : ChannelGraph) (endId : String) (maxHops : Option Nat) :
    Nat → List (List String) → List String → Option (Option PathResult)
  | fuel, queue, visited =>
    match queue with
    | [] => some none
    | path :: rest =>
      match fuel with
      | 0 => none
      | fuel + 1 =>
        if hopsExceeded path.length maxHops then
          findPathAux g endId maxHops fuel rest visited
        else
          match mapGet g.channels (path.getLast?.getD "") with
          | none => findPathAux g endId maxHops fuel rest visited
          | some cd =>
            match expandConns endId path cd.connections rest visited with
            | .found fullPath => some (some ⟨fullPath, g.buildLinks fullPath⟩)
            | .cont queue' visited' => findPathAux g endId maxHops fuel queue' visited'

/-- Sufficient fuel for the BFS loops: one iteration per initial queue
entry plus (at most) one per connection in the graph. -/
def bfsFuel (g : ChannelGraph) : Nat := g.getTotalConnections + 1

/-- graph.js `findPath(startId, endId, maxHops = Infinity)`.
`maxHops = none` models `Infinity`.  The queue holds whole paths (the
current node is the last element) and `visited` marks nodes already
enqueued. -/
def ChannelGraph.findPath (g : ChannelGraph) (startId endId : String)
    (maxHops : Option Nat) : Option PathResult :=
  if startId = endId then some ⟨[startId], []⟩
  else (findPathAux g endId maxHops (bfsFuel g) [[startId]] [startId]).join

/-- The inner connection loop of graph.js `findAllPathsWithinHops`: every
not-yet-visited target is enqueued, marked visited, and recorded in
`reachable` with its discovery path. -/
def expandAllConns (g : ChannelGraph) (path : List String) :
    List Connection → List (List String) → List String → List (String × PathResult) →
    List (List String) × List String × List (String × PathResult)
  | [], queue, visited, reachable => (queue, visited, reachable)
  | c :: cs, queue, visited, reachable =>
      if c.toC ∈ visited then expandAllConns g path cs queue visited reachable
      else
        let newPath := path ++ [c.toC]
        expandAllConns g path cs (queue ++ [newPath]) (visited ++ [c.toC])
          (mapSet reachable c.toC ⟨newPath, g.buildLinks newPath⟩)

/-- The while-loop of graph.js `findAllPathsWithinHops`, indexed by fuel
(same fuel discipline as `findPathAux`). -/
def findAllAux (g : ChannelGraph) (maxHops : Nat) :
    Nat → List (List String) → List String → List (String × PathResult) →
    Option (List (String × PathResult))
  | fuel, queue, visited, reachable =>
    match queue with
    | [] => some reachable
    | path :: rest =>
      match fuel with
      | 0 => none
      | fuel + 1 =>
        if maxHops + 1 < path.length then
          findAllAux g maxHops fuel rest visited reachable
        else
          match mapGet g.channels (path.getLast?.getD "") with
          | none => findAllAux g maxHops fuel rest visited reachable
          | some cd =>
            match expandAllConns g path cd.connections rest visited reachable with
            | (q', v', r') => findAllAux g maxHops fuel q' v' r'

/-- graph.js `findAllPathsWithinHops(startId, maxHops)`.  The `reachable`
map (insertion-ordered) is modelled as an association list. -/
def ChannelGraph.findAllPathsWithinHops (g : ChannelGraph) (startId : String)
    (maxHops : Nat) : List (String × PathResult) :=
  (findAllAux g maxHops (bfsFuel g) [[startId]] [startId] []).getD []

/-! ### Walks in a `ChannelGraph`

A walk is a nonempty list of channel ids in which each consecutive pair is
joined by a stored connection.  `WalkFromTo g a b p` says `p` is such a
walk from `a` to `b`; its hop count is `p.length - 1`.  These predicates
are the specification vocabulary for the path-query claims. -/

/-- There is a stored connection from `a` to `b`. -/
def hasConn (g : ChannelGraph) (a b : String) : Prop :=
  ∃ cd, mapGet g.channels a = some cd ∧ ∃ c ∈ cd.connections, c.toC = b

/-- Every consecutive pair of the list is joined by a stored connection. -/
def IsWalk (g : ChannelGraph) (p : List String) : Prop :=
  List.Chain' (hasConn g) p

/-- `p` is a walk from `a` to `b` (in particular `p` is nonempty). -/
def WalkFromTo (g : ChannelGraph) (a b : String) (p : List String) : Prop :=
  p.head? = some a ∧ p.getLast? = some b ∧ IsWalk g p

theorem IsWalk.snoc {g : ChannelGraph} {p : List String} {v w : String}
    (hw : IsWalk g p) (hv : p.getLast? = some v) (h : hasConn g v w) :
    IsWalk g (p ++ [w]) := by
  refine List.chain'_append.mpr ⟨hw, List.chain'_singleton w, ?_⟩
  intro x hx y hy
  simp only [List.head?_cons, Option.mem_def, Option.some.injEq] at hy
  rw [hv] at hx
  simp only [Option.mem_def, Option.some.injEq] at hx
  subst hx; subst hy; exact h

theorem WalkFromTo.length_pos {g : ChannelGraph} {a b : String} {p : List String}
    (h : WalkFromTo g a b p) : 1 ≤ p.length := by
  rcases h with ⟨h1, -, -⟩
  cases p with
  | nil => simp at h1
  | cons x xs => simp

theorem hasConn_mem_targets {g : ChannelGraph} {a b : String}
    (h : hasConn g a b) : b ∈ targets g := by
  rcases h with ⟨cd, hcd, c, hc, hto⟩
  unfold mapGet at hcd
  rcases Option.map_eq_some'.mp hcd with ⟨kv, hfind, hsnd⟩
  have hkv := List.mem_of_find?_eq_some hfind
  refine List.mem_flatMap.mpr ⟨kv, hkv, ?_⟩
  subst hsnd
  exact List.mem_map.mpr ⟨c, hc, hto⟩

/-- `n ≤ B` for an optional bound (`none` = unbounded): the node counts a
dequeued path may have and still be expanded. -/
def withinB : Option Nat → Nat → Prop
  | none, _ => True
  | some t, n => n ≤ t

/-- `n ≤ B + 1`: the node counts a walk may have and still be discoverable. -/
def withinBPlus : Option Nat → Nat → Prop
  | none, _ => True
  | some t, n => n ≤ t + 1

theorem hopsExceeded_eq_false {len : Nat} {mh : Option Nat} :
    hopsExceeded len mh = false ↔ withinB mh len := by
  cases mh <;> simp [hopsExceeded, withinB]

theorem mapSet_of_not_key {α : Type} {m : List (String × α)} {k : String} {v : α}
    (h : ∀ kv ∈ m, kv.1 ≠ k) : mapSet m k v = m ++ [(k, v)] := by
  have hnone : m.find? (fun kv => kv.1 = k) = none :=
    List.find?_eq_none.mpr (by intro kv hkv; simpa using h kv hkv)
  simp [mapSet, hnone]

/-! ### The BFS loop invariant

`QDAt queue done w b` says node `w` is covered at level `≤ b`: some queued
path of length `≤ b` ends at `w`, or `w` was already dequeued ("done")
with a path of length `≤ b`.  `done` is a ghost history: the loop does not
compute it, the lemmas thread it through. -/

def QDAt (queue : List (List String)) (done : List (String × Nat))
    (w : String) (b : Nat) : Prop :=
  (∃ p ∈ queue, p.getLast? = some w ∧ p.length ≤ b) ∨
  (∃ l, (w, l) ∈ done ∧ l ≤ b)

theorem QDAt.mono {queue done w} {b b' : Nat} (hb : b ≤ b')
    (h : QDAt queue done w b) : QDAt queue done w b' := by
  rcases h with ⟨p, hp, hl, hlen⟩ | ⟨l, hm, hle⟩
  · exact Or.inl ⟨p, hp, hl, hlen.trans hb⟩
  · exact Or.inr ⟨l, hm, hle.trans hb⟩

/-- Coverage survives one loop iteration: the head `p₀` is dequeued (its
endpoint moving to `done` at its own level) and fresh paths are appended. -/
theorem QDAt.dequeue {p₀ : List String} {rest news : List (List String)}
    {done : List (String × Nat)} {w : String} {b : Nat}
    (h : QDAt (p₀ :: rest) done w b) :
    QDAt (rest ++ news) ((p₀.getLast?.getD "", p₀.length) :: done) w b := by
  rcases h with ⟨p, hp, hl, hlen⟩ | ⟨l, hm, hle⟩
  · rcases List.mem_cons.mp hp with rfl | hp
    · right
      refine ⟨p.length, ?_, hlen⟩
      rw [hl]
      exact List.mem_cons_self _ _
    · exact Or.inl ⟨p, List.mem_append_left _ hp, hl, hlen⟩
  · exact Or.inr ⟨l, List.mem_cons_of_mem _ hm, hle⟩

/-- Characterisation of the enqueue loop shared by `findPath` (when no
connection hits `endId`) and `findAllPathsWithinHops`: it appends the
paths `path ++ [w]` for the fresh targets `ws` (first occurrences of
not-yet-visited connection targets, in order) and marks exactly `ws`
visited. -/
theorem enqueueConns_exists (path : List String) :
    ∀ (cs : List Connection) (q : List (List String)) (v : List String),
      ∃ ws : List String,
        (∀ endId,
          (∀ c ∈ cs, c.toC ≠ endId) →
          expandConns endId path cs q v =
            .cont (q ++ ws.map (fun w => path ++ [w])) (v ++ ws)) ∧
        (∀ g : ChannelGraph, ∀ r : List (String × PathResult),
          (∀ kv ∈ r, kv.1 ∈ v) →
          expandAllConns g path cs q v r =
            (q ++ ws.map (fun w => path ++ [w]), v ++ ws,
             r ++ ws.map (fun w => (w, ⟨path ++ [w], g.buildLinks (path ++ [w])⟩)))) ∧
        ws.Nodup ∧ (∀ w ∈ ws, w ∉ v ∧ ∃ c ∈ cs, c.toC = w) ∧
        (∀ c ∈ cs, c.toC ∈ v ∨ c.toC ∈ ws) := by
  intro cs
  induction cs with
  | nil =>
      intro q v
      exact ⟨[], by intro endId _; simp [expandConns], by intro g r _; simp [expandAllConns],
        List.nodup_nil, by simp, by simp⟩
  | cons c cs ih =>
      intro q v
      by_cases hv : c.toC ∈ v
      · obtain ⟨ws, hexp, hall, hnd, hws, hcov⟩ := ih q v
        refine ⟨ws, ?_, ?_, hnd, ?_, ?_⟩
        · intro endId hne
          rw [expandConns, if_neg (hne c (List.mem_cons_self _ _)), if_pos hv]
          exact hexp endId (fun c' hc' => hne c' (List.mem_cons_of_mem _ hc'))
        · intro g r hr
          rw [expandAllConns, if_pos hv]
          exact hall g r hr
        · intro w hw
          obtain ⟨h1, c', hc', h2⟩ := hws w hw
          exact ⟨h1, c', List.mem_cons_of_mem _ hc', h2⟩
        · intro c' hc'
          rcases List.mem_cons.mp hc' with rfl | hc'
          · exact Or.inl hv
          · exact hcov c' hc'
      · obtain ⟨ws, hexp, hall, hnd, hws, hcov⟩ :=
          ih (q ++ [path ++ [c.toC]]) (v ++ [c.toC])
        refine ⟨c.toC :: ws, ?_, ?_, ?_, ?_, ?_⟩
        · intro endId hne
          rw [expandConns, if_neg (hne c (List.mem_cons_self _ _)), if_neg hv,
            hexp endId (fun c' hc' => hne c' (List.mem_cons_of_mem _ hc'))]
          simp
        · intro g r hr
          rw [expandAllConns, if_neg hv]
          have hrw : mapSet r c.toC ⟨path ++ [c.toC], g.buildLinks (path ++ [c.toC])⟩ =
              r ++ [(c.toC, ⟨path ++ [c.toC], g.buildLinks (path ++ [c.toC])⟩)] :=
            mapSet_of_not_key (fun kv hkv hkv1 => hv (hkv1 ▸ hr kv hkv))
          have hr' : ∀ kv ∈ mapSet r c.toC ⟨path ++ [c.toC], g.buildLinks (path ++ [c.toC])⟩,
              kv.1 ∈ v ++ [c.toC] := by
            rw [hrw]
            intro kv hkv
            rcases List.mem_append.mp hkv with hkv | hkv
            · exact List.mem_append_left _ (hr kv hkv)
            · simp only [List.mem_singleton] at hkv
              subst hkv
              simp
          rw [hall g _ hr', hrw]
          simp
        · refine List.nodup_cons.mpr ⟨?_, hnd⟩
          intro hmem
          exact ((hws c.toC hmem).1) (by simp)
        · intro w hw
          rcases List.mem_cons.mp hw with rfl | hw
          · exact ⟨hv, c, List.mem_cons_self _ _, rfl⟩
          · obtain ⟨h1, c', hc', h2⟩ := hws w hw
            refine ⟨fun hmem => h1 (List.mem_append_left _ hmem),
              c', List.mem_cons_of_mem _ hc', h2⟩
        · intro c' hc'
          rcases List.mem_cons.mp hc' with rfl | hc'
          · exact Or.inr (List.mem_cons_self _ _)
          · rcases hcov c' hc' with h | h
            · rcases List.mem_append.mp h with h | h
              · exact Or.inl h
              · simp only [List.mem_singleton] at h
                exact Or.inr (h ▸ List.mem_cons_self _ _)
            · exact Or.inr (List.mem_cons_of_mem _ h)

/-- The BFS loop invariant, shared by `findPath` and
`findAllPathsWithinHops`.  `queue`/`visited` are the loop state; `done`
is a ghost list of already-dequeued endpoints with the length of the path
they were dequeued with. -/
structure BfsInv (g : ChannelGraph) (start : String) (B : Option Nat)
    (queue : List (List String)) (visited : List String)
    (done : List (String × Nat)) : Prop where
  qsound : ∀ p ∈ queue, p.head? = some start ∧ IsWalk g p ∧
    ∃ v, p.getLast? = some v ∧ v ∈ visited
  sorted : List.Pairwise (fun p q : List String => p.length ≤ q.length) queue
  window : ∀ p ∈ queue, ∀ q ∈ queue, p.length ≤ q.length + 1
  cover : ∀ v ∈ visited, (∃ p ∈ queue, p.getLast? = some v) ∨ ∃ l, (v, l) ∈ done
  startCov : QDAt queue done start 1
  doneMem : ∀ d ∈ done, d.1 ∈ visited
  doneLe : ∀ d ∈ done, ∀ p ∈ queue, d.2 ≤ p.length
  doneExp : ∀ d ∈ done, withinB B d.2 →
    ∀ w, hasConn g d.1 w → QDAt queue done w (d.2 + 1)
  startMem : start ∈ visited
  nodupV : visited.Nodup
  subV : ∀ v ∈ visited, v = start ∨ v ∈ targets g

/-- The invariant holds at loop entry. -/
theorem BfsInv.init (g : ChannelGraph) (start : String) (B : Option Nat) :
    BfsInv g start B [[start]] [start] [] := by
  refine ⟨?_, ?_, ?_, ?_, ?_, ?_, ?_, ?_, ?_, ?_, ?_⟩
  · intro p hp
    simp only [List.mem_singleton] at hp
    subst hp
    exact ⟨rfl, List.chain'_singleton start, start, rfl, List.mem_singleton_self start⟩
  · simp
  · intro p hp q hq
    simp only [List.mem_singleton] at hp hq
    subst hp; subst hq; simp
  · intro v hv
    simp only [List.mem_singleton] at hv
    exact Or.inl ⟨[start], List.mem_singleton_self _, by rw [hv]; rfl⟩
  · exact Or.inl ⟨[start], List.mem_singleton_self _, rfl, le_refl 1⟩
  · simp
  · simp
  · simp
  · exact List.mem_singleton_self start
  · exact List.nodup_singleton start
  · intro v hv
    simp only [List.mem_singleton] at hv
    exact Or.inl hv

/-- Dequeuing the head without expanding it (pruned by the hop bound, or
its node has no entry in `channels`) preserves the invariant. -/
theorem BfsInv.drop {g : ChannelGraph} {start : String} {B : Option Nat}
    {p₀ : List String} {rest : List (List String)} {visited : List String}
    {done : List (String × Nat)}
    (inv : BfsInv g start B (p₀ :: rest) visited done)
    (hdrop : ¬ withinB B p₀.length ∨ mapGet g.channels (p₀.getLast?.getD "") = none) :
    BfsInv g start B rest visited ((p₀.getLast?.getD "", p₀.length) :: done) := by
  obtain ⟨hh, hwalk, v₀, hlast, hv₀⟩ := inv.qsound p₀ (List.mem_cons_self _ _)
  have hgetD : p₀.getLast?.getD "" = v₀ := by rw [hlast]; rfl
  have hsorted := List.pairwise_cons.mp inv.sorted
  refine ⟨?_, hsorted.2, ?_, ?_, ?_, ?_, ?_, ?_, inv.startMem, inv.nodupV, inv.subV⟩
  · exact fun p hp => inv.qsound p (List.mem_cons_of_mem _ hp)
  · exact fun p hp q hq =>
      inv.window p (List.mem_cons_of_mem _ hp) q (List.mem_cons_of_mem _ hq)
  · intro v hv
    rcases inv.cover v hv with ⟨p, hp, hl⟩ | ⟨l, hm⟩
    · rcases List.mem_cons.mp hp with rfl | hp
      · right
        refine ⟨p.length, ?_⟩
        rw [hlast] at hl
        rw [hgetD, Option.some.inj hl]
        exact List.mem_cons_self _ _
      · exact Or.inl ⟨p, hp, hl⟩
    · exact Or.inr ⟨l, List.mem_cons_of_mem _ hm⟩
  · simpa using @QDAt.dequeue _ _ [] _ _ _ inv.startCov
  · intro d hd
    rcases List.mem_cons.mp hd with rfl | hd
    · simpa [hgetD] using hv₀
    · exact inv.doneMem d hd
  · intro d hd p hp
    rcases List.mem_cons.mp hd with rfl | hd
    · exact hsorted.1 p hp
    · exact inv.doneLe d hd p (List.mem_cons_of_mem _ hp)
  · intro d hd hwB w hconn
    rcases List.mem_cons.mp hd with rfl | hd
    · rcases hdrop with hB | hnone
      · exact absurd hwB hB
      · rcases hconn with ⟨cd, hcd, -⟩
        rw [hnone] at hcd
        cases hcd
    · simpa using @QDAt.dequeue _ _ [] _ _ _ (inv.doneExp d hd hwB w hconn)

/-- All paths appended by an expansion step have pairwise-ordered lengths
(they are all one longer than the expanded path). -/
theorem pairwise_len_map_snoc (p₀ : List String) (ws : List String) :
    List.Pairwise (fun p q : List String => p.length ≤ q.length)
      (ws.map (fun w => p₀ ++ [w])) := by
  induction ws with
  | nil => simp
  | cons w ws ih =>
      simp only [List.map_cons, List.pairwise_cons]
      refine ⟨?_, ih⟩
      intro q hq
      rcases List.mem_map.mp hq with ⟨w', -, rfl⟩
      simp

/-- Expanding the dequeued head through its connection list preserves the
invariant: the fresh targets `ws` are enqueued via `p₀` and marked
visited, and `p₀`'s endpoint moves to the ghost `done` list. -/
theorem BfsInv.expand {g : ChannelGraph} {start : String} {B : Option Nat}
    {p₀ : List String} {rest : List (List String)} {visited : List String}
    {done : List (String × Nat)} {ws : List String} {cd : ChannelData}
    (inv : BfsInv g start B (p₀ :: rest) visited done)
    (hB : withinB B p₀.length)
    (hcd : mapGet g.channels (p₀.getLast?.getD "") = some cd)
    (hnd : ws.Nodup)
    (hws : ∀ w ∈ ws, w ∉ visited ∧ ∃ c ∈ cd.connections, c.toC = w)
    (hcov : ∀ c ∈ cd.connections, c.toC ∈ visited ∨ c.toC ∈ ws) :
    BfsInv g start B (rest ++ ws.map (fun w => p₀ ++ [w])) (visited ++ ws)
      ((p₀.getLast?.getD "", p₀.length) :: done) := by
  obtain ⟨hh, hwalk, v₀, hlast, hv₀⟩ := inv.qsound p₀ (List.mem_cons_self _ _)
  have hgetD : p₀.getLast?.getD "" = v₀ := by rw [hlast]; rfl
  have hsorted := List.pairwise_cons.mp inv.sorted
  have hconnw : ∀ w ∈ ws, hasConn g v₀ w := by
    intro w hw
    obtain ⟨-, c, hc, hto⟩ := hws w hw
    exact ⟨cd, by rw [← hgetD]; exact hcd, c, hc, hto⟩
  have hlenNew : ∀ q ∈ ws.map (fun w => p₀ ++ [w]), q.length = p₀.length + 1 := by
    intro q hq
    rcases List.mem_map.mp hq with ⟨w, -, rfl⟩
    simp
  refine ⟨?_, ?_, ?_, ?_, ?_, ?_, ?_, ?_, ?_, ?_, ?_⟩
  · intro p hp
    rcases List.mem_append.mp hp with hp | hp
    · obtain ⟨hh', hw', v', hl', hv'⟩ := inv.qsound p (List.mem_cons_of_mem _ hp)
      exact ⟨hh', hw', v', hl', List.mem_append_left _ hv'⟩
    · rcases List.mem_map.mp hp with ⟨w, hwmem, rfl⟩
      refine ⟨?_, hwalk.snoc hlast (hconnw w hwmem), w, List.getLast?_concat _, ?_⟩
      · rw [List.head?_append, hh]; rfl
      · exact List.mem_append_right _ hwmem
  · refine List.pairwise_append.mpr ⟨hsorted.2, pairwise_len_map_snoc p₀ ws, ?_⟩
    intro a ha b hb
    rw [hlenNew b hb]
    exact inv.window a (List.mem_cons_of_mem _ ha) p₀ (List.mem_cons_self _ _)
  · intro p hp q hq
    rcases List.mem_append.mp hp with hp | hp <;> rcases List.mem_append.mp hq with hq | hq
    · exact inv.window p (List.mem_cons_of_mem _ hp) q (List.mem_cons_of_mem _ hq)
    · rw [hlenNew q hq]
      have := inv.window p (List.mem_cons_of_mem _ hp) p₀ (List.mem_cons_self _ _)
      omega
    · rw [hlenNew p hp]
      have := hsorted.1 q hq
      omega
    · rw [hlenNew p hp, hlenNew q hq]
      omega
  · intro v hv
    rcases List.mem_append.mp hv with hv | hv
    · rcases inv.cover v hv with ⟨p, hp, hl⟩ | ⟨l, hm⟩
      · rcases List.mem_cons.mp hp with rfl | hp
        · right
          refine ⟨p.length, ?_⟩
          rw [hlast] at hl
          rw [hgetD, Option.some.inj hl]
          exact List.mem_cons_self _ _
        · exact Or.inl ⟨p, List.mem_append_left _ hp, hl⟩
      · exact Or.inr ⟨l, List.mem_cons_of_mem _ hm⟩
    · exact Or.inl ⟨p₀ ++ [v], List.mem_append_right _ (List.mem_map_of_mem _ hv),
        List.getLast?_concat _⟩
  · exact QDAt.dequeue inv.startCov
  · intro d hd
    rcases List.mem_cons.mp hd with rfl | hd
    · exact List.mem_append_left _ (by simpa [hgetD] using hv₀)
    · exact List.mem_append_left _ (inv.doneMem d hd)
  · intro d hd p hp
    rcases List.mem_cons.mp hd with rfl | hd
    · rcases List.mem_append.mp hp with hp | hp
      · exact hsorted.1 p hp
      · rw [hlenNew p hp]; omega
    · rcases List.mem_append.mp hp with hp | hp
      · exact inv.doneLe d hd p (List.mem_cons_of_mem _ hp)
      · rw [hlenNew p hp]
        have := inv.doneLe d hd p₀ (List.mem_cons_self _ _)
        omega
  · intro d hd hwB w hconn
    rcases List.mem_cons.mp hd with rfl | hd
    · -- the newly dequeued node: every out-neighbour is covered at the next level
      rcases hconn with ⟨cd', hcd', c, hc, hto⟩
      have hcdeq : cd' = cd := by
        rw [hcd'] at hcd
        exact Option.some.inj hcd
      subst hcdeq
      rcases hcov c hc with hvis | hmem
      · rw [hto] at hvis
        rcases inv.cover w hvis with ⟨p, hp, hl⟩ | ⟨l, hm⟩
        · rcases List.mem_cons.mp hp with rfl | hp
          · right
            refine ⟨p.length, ?_, Nat.le_succ _⟩
            rw [hlast] at hl
            rw [hgetD, Option.some.inj hl]
            exact List.mem_cons_self _ _
          · refine Or.inl ⟨p, List.mem_append_left _ hp, hl, ?_⟩
            exact inv.window p (List.mem_cons_of_mem _ hp) p₀ (List.mem_cons_self _ _)
        · refine Or.inr ⟨l, List.mem_cons_of_mem _ hm, ?_⟩
          have := inv.doneLe (w, l) hm p₀ (List.mem_cons_self _ _)
          omega
      · rw [hto] at hmem
        exact Or.inl ⟨p₀ ++ [w], List.mem_append_right _ (List.mem_map_of_mem _ hmem),
          List.getLast?_concat _, by simp⟩
    · exact QDAt.dequeue (inv.doneExp d hd hwB w hconn)
  · exact List.mem_append_left _ inv.startMem
  · refine List.nodup_append.mpr ⟨inv.nodupV, hnd, ?_⟩
    intro a ha ha'
    exact (hws a ha').1 ha
  · intro v hv
    rcases List.mem_append.mp hv with hv | hv
    · exact inv.subV v hv
    · exact Or.inr (hasConn_mem_targets (hconnw v hv))

/-- Walking along a witness walk from a covered node: any walk from a
covered node `v` to an unvisited node `w` (short enough for the pruning
bound) can be re-routed through a path currently in the queue. -/
theorem bfs_cover_aux {g : ChannelGraph} {start : String} {B : Option Nat}
    {queue : List (List String)} {visited : List String} {done : List (String × Nat)}
    (inv : BfsInv g start B queue visited done) {w : String} {Q : Nat}
    (hQ : withinBPlus B Q) :
    ∀ (tail : List String) (v : String) (b : Nat),
      QDAt queue done v b → IsWalk g (v :: tail) → (v :: tail).getLast? = some w →
      w ∉ visited → b + tail.length ≤ Q →
      ∃ p ∈ queue, ∃ t2, t2 ≠ [] ∧ IsWalk g (p ++ t2) ∧
        (p ++ t2).getLast? = some w ∧ p.length + t2.length ≤ Q := by
  intro tail
  induction tail with
  | nil =>
      intro v b hqd hwalk hlast hnw hb
      -- `v = w`, yet any covered node is visited: contradiction.
      simp only [List.getLast?_singleton, Option.some.injEq] at hlast
      subst hlast
      rcases hqd with ⟨p, hp, hl, -⟩ | ⟨l, hm, -⟩
      · obtain ⟨-, -, v', hl', hv'⟩ := inv.qsound p hp
        rw [hl] at hl'
        exact absurd (Option.some.inj hl' ▸ hv') hnw
      · exact absurd (inv.doneMem (v, l) hm) hnw
  | cons t0 t' ih =>
      intro v b hqd hwalk hlast hnw hb
      have hconn : hasConn g v t0 := (List.chain'_cons.mp hwalk).1
      have hwalk' : IsWalk g (t0 :: t') := (List.chain'_cons.mp hwalk).2
      have hlast' : (t0 :: t').getLast? = some w := by
        rw [← hlast]
        rfl
      rcases hqd with ⟨p, hp, hl, hlen⟩ | ⟨l, hm, hle⟩
      · -- the cover is still in the queue: splice the walk onto it
        refine ⟨p, hp, t0 :: t', by simp, ?_, ?_, ?_⟩
        · obtain ⟨-, hpw, -⟩ := inv.qsound p hp
          refine List.chain'_append.mpr ⟨hpw, hwalk', ?_⟩
          intro x hx y hy
          rw [hl] at hx
          simp only [Option.mem_def, Option.some.injEq] at hx hy
          subst hx
          cases hy
          exact hconn
        · rw [List.getLast?_append, hlast']
          rfl
        · simp only [List.length_cons] at hb ⊢
          omega
      · -- the cover was already dequeued: its expansion covered `t0`
        have hwB : withinB B l := by
          cases B with
          | none => trivial
          | some t =>
              simp only [withinBPlus] at hQ
              simp only [withinB]
              simp only [List.length_cons] at hb
              omega
        have hqd' := inv.doneExp (v, l) hm hwB t0 hconn
        have := ih t0 (l + 1) hqd' hwalk' hlast' hnw (by
          simp only [List.length_cons] at hb
          omega)
        exact this

/-- Any walk from `start` to an unvisited node short enough for the
pruning bound can be completed from some path currently in the queue,
without increasing the total length. -/
theorem bfs_cover {g : ChannelGraph} {start : String} {B : Option Nat}
    {queue : List (List String)} {visited : List String} {done : List (String × Nat)}
    (inv : BfsInv g start B queue visited done) {w : String} {q : List String}
    (hq : WalkFromTo g start w q) (hQ : withinBPlus B q.length) (hnw : w ∉ visited) :
    ∃ p ∈ queue, ∃ t2, t2 ≠ [] ∧ IsWalk g (p ++ t2) ∧
      (p ++ t2).getLast? = some w ∧ p.length + t2.length ≤ q.length := by
  rcases hq with ⟨h1, h2, h3⟩
  cases q with
  | nil => simp at h1
  | cons x tail =>
      simp only [List.head?_cons, Option.some.injEq] at h1
      subst h1
      exact bfs_cover_aux inv hQ tail x 1 inv.startCov h3 h2 hnw (by
        simp only [List.length_cons]
        omega)

/-- Nodup-visited lists of start/target ids are no longer than the fuel. -/
theorem visited_length_le {g : ChannelGraph} {start : String} {visited : List String}
    (h1 : visited.Nodup) (h2 : ∀ v ∈ visited, v = start ∨ v ∈ targets g) :
    visited.length ≤ g.getTotalConnections + 1 := by
  have hlen : (targets g).length = g.getTotalConnections := by
    simp only [targets, List.length_flatMap, ChannelGraph.getTotalConnections]
    apply congrArg
    apply List.map_congr_left
    intro kv _
    simp
  calc visited.length = visited.toFinset.card := (List.toFinset_card_of_nodup h1).symm
    _ ≤ (start :: targets g).toFinset.card := by
        apply Finset.card_le_card
        intro x hx
        simp only [List.mem_toFinset] at hx ⊢
        rcases h2 x hx with rfl | hx
        · exact List.mem_cons_self _ _
        · exact List.mem_cons_of_mem _ hx
    _ ≤ (start :: targets g).length := List.toFinset_card_le _
    _ = g.getTotalConnections + 1 := by rw [List.length_cons, hlen]

theorem findPathAux_nil {g : ChannelGraph} {endId : String} {B : Option Nat}
    {fuel : Nat} {visited : List String} :
    findPathAux g endId B fuel [] visited = some none := by
  rw [findPathAux]

theorem findPathAux_zero {g : ChannelGraph} {endId : String} {B : Option Nat}
    {p₀ : List String} {rest : List (List String)} {visited : List String} :
    findPathAux g endId B 0 (p₀ :: rest) visited = none := by
  rw [findPathAux]

theorem findPathAux_succ {g : ChannelGraph} {endId : String} {B : Option Nat}
    {fuel : Nat} {p₀ : List String} {rest : List (List String)} {visited : List String} :
    findPathAux g endId B (fuel + 1) (p₀ :: rest) visited =
      if hopsExceeded p₀.length B then
        findPathAux g endId B fuel rest visited
      else
        match mapGet g.channels (p₀.getLast?.getD "") with
        | none => findPathAux g endId B fuel rest visited
        | some cd =>
          match expandConns endId p₀ cd.connections rest visited with
          | .found fullPath => some (some ⟨fullPath, g.buildLinks fullPath⟩)
          | .cont queue' visited' => findPathAux g endId B fuel queue' visited' := by
  rw [findPathAux]

theorem expandConns_cont_no_end {endId : String} {path : List String} :
    ∀ {cs : List Connection} {q : List (List String)} {v : List String}
      {q' : List (List String)} {v' : List String},
      expandConns endId path cs q v = .cont q' v' → ∀ c ∈ cs, c.toC ≠ endId := by
  intro cs
  induction cs with
  | nil =>
      intro q v q' v' _ c hc
      cases hc
  | cons c cs ih =>
      intro q v q' v' h c' hc'
      rw [expandConns] at h
      by_cases hcend : c.toC = endId
      · rw [if_pos hcend] at h
        cases h
      · rw [if_neg hcend] at h
        rcases List.mem_cons.mp hc' with rfl | hc'
        · exact hcend
        · by_cases hvis : c.toC ∈ v
          · rw [if_pos hvis] at h
            exact ih h c' hc'
          · rw [if_neg hvis] at h
            exact ih h c' hc'

theorem expandConns_found_spec {endId : String} {path : List String} :
    ∀ {cs : List Connection} {q : List (List String)} {v : List String}
      {fp : List String},
      expandConns endId path cs q v = .found fp →
      fp = path ++ [endId] ∧ ∃ c ∈ cs, c.toC = endId := by
  intro cs
  induction cs with
  | nil =>
      intro q v fp h
      rw [expandConns] at h
      cases h
  | cons c cs ih =>
      intro q v fp h
      rw [expandConns] at h
      by_cases hcend : c.toC = endId
      · rw [if_pos hcend] at h
        cases h
        exact ⟨rfl, c, List.mem_cons_self _ _, hcend⟩
      · rw [if_neg hcend] at h
        by_cases hvis : c.toC ∈ v
        · rw [if_pos hvis] at h
          obtain ⟨h1, c', hc', h2⟩ := ih h
          exact ⟨h1, c', List.mem_cons_of_mem _ hc', h2⟩
        · rw [if_neg hvis] at h
          obtain ⟨h1, c', hc', h2⟩ := ih h
          exact ⟨h1, c', List.mem_cons_of_mem _ hc', h2⟩

/-- Soundness and minimality of the `findPath` loop: a returned result is
a genuine walk from `start` to `endId`, within the bound, no longer than
any such walk that respects the bound, and carries `buildLinks` hop
details. -/
theorem findPathAux_sound {g : ChannelGraph} {start endId : String} {B : Option Nat} :
    ∀ (fuel : Nat) (queue : List (List String)) (visited : List String)
      (done : List (String × Nat)),
      BfsInv g start B queue visited done → endId ∉ visited →
      ∀ r, findPathAux g endId B fuel queue visited = some (some r) →
        WalkFromTo g start endId r.path ∧ r.links = g.buildLinks r.path ∧
        withinBPlus B r.path.length ∧
        ∀ q, WalkFromTo g start endId q → withinBPlus B q.length →
          r.path.length ≤ q.length := by
  intro fuel
  induction fuel with
  | zero =>
      intro queue visited done inv hend r hr
      cases queue with
      | nil => rw [findPathAux_nil] at hr; simp at hr
      | cons p₀ rest => rw [findPathAux_zero] at hr; cases hr
  | succ fuel ih =>
      intro queue visited done inv hend r hr
      cases queue with
      | nil => rw [findPathAux_nil] at hr; simp at hr
      | cons p₀ rest =>
        rw [findPathAux_succ] at hr
        split at hr
        · next hex =>
          have hnB : ¬ withinB B p₀.length := by
            intro hwB
            rw [hopsExceeded_eq_false.mpr hwB] at hex
            cases hex
          exact ih rest visited _ (inv.drop (Or.inl hnB)) hend r hr
        · next hex =>
          have hwB : withinB B p₀.length :=
            hopsExceeded_eq_false.mp (by simpa using hex)
          split at hr
          · next hcd =>
              exact ih rest visited _ (inv.drop (Or.inr hcd)) hend r hr
          · next cd hcd =>
              obtain ⟨hh, hwalk, v₀, hlast, hv₀⟩ := inv.qsound p₀ (List.mem_cons_self _ _)
              have hgetD : p₀.getLast?.getD "" = v₀ := by rw [hlast]; rfl
              split at hr
              · next fullPath hexp =>
                  obtain ⟨rfl, c, hc, hto⟩ := expandConns_found_spec hexp
                  have hrr : r = ⟨p₀ ++ [endId], g.buildLinks (p₀ ++ [endId])⟩ := by
                    injection hr with hr'
                    injection hr' with hr''
                    exact hr''.symm
                  subst hrr
                  have hconn : hasConn g v₀ endId :=
                    ⟨cd, by rw [← hgetD]; exact hcd, c, hc, hto⟩
                  refine ⟨⟨?_, List.getLast?_concat _, hwalk.snoc hlast hconn⟩, rfl, ?_, ?_⟩
                  · rw [List.head?_append, hh]; rfl
                  · simp only [List.length_append, List.length_singleton]
                    cases B with
                    | none => trivial
                    | some t =>
                        simp only [withinB] at hwB
                        simp only [withinBPlus]
                        omega
                  · intro q hq hQb
                    obtain ⟨p, hp, t2, ht2ne, -, -, hlen2⟩ := bfs_cover inv hq hQb hend
                    have hple : p₀.length ≤ p.length := by
                      rcases List.mem_cons.mp hp with rfl | hp'
                      · exact le_refl _
                      · exact (List.pairwise_cons.mp inv.sorted).1 p hp'
                    have ht2 : 1 ≤ t2.length := List.length_pos.mpr ht2ne
                    simp only [List.length_append, List.length_singleton]
                    omega
              · next q' v' hexp =>
                  have hne := expandConns_cont_no_end hexp
                  obtain ⟨ws, hexpEq, -, hnd, hws, hcov⟩ :=
                    enqueueConns_exists p₀ cd.connections rest visited
                  have heq := hexpEq endId hne
                  rw [hexp] at heq
                  injection heq with hq' hv'
                  subst hq'
                  subst hv'
                  have hend' : endId ∉ visited ++ ws := by
                    intro hmem
                    rcases List.mem_append.mp hmem with hmem | hmem
                    · exact hend hmem
                    · obtain ⟨-, c, hc, hto⟩ := hws _ hmem
                      exact hne c hc hto
                  exact ih _ _ _ (inv.expand hwB hcd hnd hws hcov) hend' r hr

/-- Completeness of the `findPath` loop: with sufficient fuel, if some
walk from `start` to `endId` respects the pruning bound, the loop finds a
result (it cannot return `null`, nor run out of fuel). -/
theorem findPathAux_complete {g : ChannelGraph} {start endId : String} {B : Option Nat} :
    ∀ (fuel : Nat) (queue : List (List String)) (visited : List String)
      (done : List (String × Nat)),
      BfsInv g start B queue visited done → endId ∉ visited →
      queue.length + (g.getTotalConnections + 1) ≤ fuel + visited.length →
      (∃ q, WalkFromTo g start endId q ∧ withinBPlus B q.length) →
      ∃ r, findPathAux g endId B fuel queue visited = some (some r) := by
  intro fuel
  induction fuel with
  | zero =>
      intro queue visited done inv hend hfuel hex
      cases queue with
      | nil =>
          obtain ⟨q, hq, hQb⟩ := hex
          obtain ⟨p, hp, -⟩ := bfs_cover inv hq hQb hend
          cases hp
      | cons p₀ rest =>
          have hvis := visited_length_le inv.nodupV inv.subV
          simp only [List.length_cons, Nat.zero_add] at hfuel
          omega
  | succ fuel ih =>
      intro queue visited done inv hend hfuel hex
      cases queue with
      | nil =>
          obtain ⟨q, hq, hQb⟩ := hex
          obtain ⟨p, hp, -⟩ := bfs_cover inv hq hQb hend
          cases hp
      | cons p₀ rest =>
        rw [findPathAux_succ]
        split
        · next hexc =>
          have hnB : ¬ withinB B p₀.length := by
            intro hwB
            rw [hopsExceeded_eq_false.mpr hwB] at hexc
            cases hexc
          refine ih rest visited _ (inv.drop (Or.inl hnB)) hend ?_ hex
          simp only [List.length_cons] at hfuel
          omega
        · next hexc =>
          have hwB : withinB B p₀.length :=
            hopsExceeded_eq_false.mp (by simpa using hexc)
          split
          · next hcd =>
              refine ih rest visited _ (inv.drop (Or.inr hcd)) hend ?_ hex
              simp only [List.length_cons] at hfuel
              omega
          · next cd hcd =>
              split
              · next fullPath hexp =>
                  exact ⟨⟨fullPath, g.buildLinks fullPath⟩, rfl⟩
              · next q' v' hexp =>
                  have hne := expandConns_cont_no_end hexp
                  obtain ⟨ws, hexpEq, -, hnd, hws, hcov⟩ :=
                    enqueueConns_exists p₀ cd.connections rest visited
                  have heq := hexpEq endId hne
                  rw [hexp] at heq
                  injection heq with hq' hv'
                  subst hq'
                  subst hv'
                  have hend' : endId ∉ visited ++ ws := by
                    intro hmem
                    rcases List.mem_append.mp hmem with hmem | hmem
                    · exact hend hmem
                    · obtain ⟨-, c, hc, hto⟩ := hws _ hmem
                      exact hne c hc hto
                  refine ih _ _ _ (inv.expand hwB hcd hnd hws hcov) hend' ?_ hex
                  simp only [List.length_cons, List.length_append, List.length_map] at hfuel ⊢
                  omega

/-- If every queued path already exceeds the bound, the bounded loop can
only drain the queue and return `null` (or run out of fuel): once pruning
starts, nothing is ever expanded again. -/
theorem findPathAux_all_pruned {g : ChannelGraph} {endId : String} {k : Nat} :
    ∀ (fuel : Nat) (queue : List (List String)) (visited : List String),
      (∀ p ∈ queue, k < p.length) →
      ∀ r, findPathAux g endId (some k) fuel queue visited ≠ some (some r) := by
  intro fuel
  induction fuel with
  | zero =>
      intro queue visited hall r
      cases queue with
      | nil => rw [findPathAux_nil]; simp
      | cons p₀ rest => rw [findPathAux_zero]; simp
  | succ fuel ih =>
      intro queue visited hall r
      cases queue with
      | nil => rw [findPathAux_nil]; simp
      | cons p₀ rest =>
        rw [findPathAux_succ]
        have hx : hopsExceeded p₀.length (some k) = true := by
          simp only [hopsExceeded, decide_eq_true_eq]
          exact hall p₀ (List.mem_cons_self _ _)
        rw [if_pos hx]
        exact ih rest visited (fun p hp => hall p (List.mem_cons_of_mem _ hp)) r

/-- A bounded `findPath` run that produces a result behaves exactly like
the unbounded run: the bound never pruned anything on the successful
prefix of the search. -/
theorem findPathAux_bounded_to_unbounded {g : ChannelGraph} {start endId : String}
    {k : Nat} :
    ∀ (fuel : Nat) (queue : List (List String)) (visited : List String)
      (done : List (String × Nat)),
      BfsInv g start (some k) queue visited done →
      ∀ r, findPathAux g endId (some k) fuel queue visited = some (some r) →
        findPathAux g endId none fuel queue visited = some (some r) := by
  intro fuel
  induction fuel with
  | zero =>
      intro queue visited done inv r hr
      cases queue with
      | nil => rw [findPathAux_nil] at hr; simp at hr
      | cons p₀ rest => rw [findPathAux_zero] at hr; cases hr
  | succ fuel ih =>
      intro queue visited done inv r hr
      cases queue with
      | nil => rw [findPathAux_nil] at hr; simp at hr
      | cons p₀ rest =>
        rw [findPathAux_succ] at hr
        split at hr
        · next hexc =>
          -- the head was pruned, so everything behind it is pruned as well:
          -- the bounded run cannot have produced a result
          exfalso
          simp only [hopsExceeded, decide_eq_true_eq] at hexc
          have hall : ∀ p ∈ p₀ :: rest, k < p.length := by
            intro p hp
            rcases List.mem_cons.mp hp with rfl | hp'
            · exact hexc
            · have := (List.pairwise_cons.mp inv.sorted).1 p hp'
              omega
          have hdrain : ∀ p ∈ rest, k < p.length :=
            fun p hp => hall p (List.mem_cons_of_mem _ hp)
          exact findPathAux_all_pruned fuel rest visited hdrain r hr
        · next hexc =>
          have hwB : withinB (some k) p₀.length :=
            hopsExceeded_eq_false.mp (by simpa using hexc)
          rw [findPathAux_succ]
          rw [if_neg (by simp [hopsExceeded])]
          split at hr
          · next hcd =>
              exact ih rest visited _ (inv.drop (Or.inr hcd)) r hr
          · next cd hcd =>
              split at hr
              · next fullPath hexp =>
                  exact hr
              · next q' v' hexp =>
                  have hne := expandConns_cont_no_end hexp
                  obtain ⟨ws, hexpEq, -, hnd, hws, hcov⟩ :=
                    enqueueConns_exists p₀ cd.connections rest visited
                  have heq := hexpEq endId hne
                  rw [hexp] at heq
                  injection heq with hq' hv'
                  subst hq'
                  subst hv'
                  exact ih _ _ _ (inv.expand hwB hcd hnd hws hcov) r hr

/-- The initial fuel inequality: at loop entry the fuel `bfsFuel g` covers
the queue length plus the number of still-unvisited enqueueable nodes. -/
theorem initial_fuel_ok (g : ChannelGraph) (a : String) :
    [[a]].length + (g.getTotalConnections + 1) ≤ bfsFuel g + [a].length := by
  simp [bfsFuel]
  omega

theorem b_not_visited_init {a b : String} (hab : a ≠ b) : b ∉ [a] := by
  intro hmem
  simp only [List.mem_singleton] at hmem
  exact hab hmem.symm

/-- C4. `shortestPath(a, b)` with unbounded `maxHops` is sound and
minimal: a returned result is a walk from `a` to `b` no longer (in node
count, hence in hop count) than any walk from `a` to `b`, and `null` is
returned exactly when no walk from `a` to `b` exists. -/
theorem C4_findPath_unbounded_minimal (g : ChannelGraph) (a b : String) :
    (∀ r, g.findPath a b none = some r →
        WalkFromTo g a b r.path ∧
        ∀ q, WalkFromTo g a b q → r.path.length ≤ q.length) ∧
    (g.findPath a b none = none ↔ ¬ ∃ q, WalkFromTo g a b q) := by
  by_cases hab : a = b
  · subst hab
    have hfp : g.findPath a a none = some ⟨[a], []⟩ := by
      rw [ChannelGraph.findPath, if_pos rfl]
    constructor
    · intro r hr
      rw [hfp] at hr
      injection hr with hr
      subst hr
      refine ⟨⟨rfl, rfl, List.chain'_singleton a⟩, ?_⟩
      intro q hq
      simpa using hq.length_pos
    · rw [hfp]
      constructor
      · intro h
        cases h
      · intro h
        exact absurd ⟨[a], rfl, rfl, List.chain'_singleton a⟩ h
  · have hend : b ∉ [a] := b_not_visited_init hab
    have hfp : g.findPath a b none =
        (findPathAux g b none (bfsFuel g) [[a]] [a]).join := by
      rw [ChannelGraph.findPath, if_neg hab]
    constructor
    · intro r hr
      rw [hfp] at hr
      obtain ⟨h1, -, -, h4⟩ :=
        findPathAux_sound (bfsFuel g) [[a]] [a] [] (BfsInv.init g a none) hend r
          (Option.join_eq_some.mp hr)
      exact ⟨h1, fun q hq => h4 q hq trivial⟩
    · rw [hfp]
      constructor
      · intro hnone hex
        obtain ⟨q, hq⟩ := hex
        obtain ⟨r, hr⟩ :=
          findPathAux_complete (bfsFuel g) [[a]] [a] [] (BfsInv.init g a none) hend
            (initial_fuel_ok g a) ⟨q, hq, trivial⟩
        rw [hr] at hnone
        cases hnone
      · intro hnex
        cases hj : (findPathAux g b none (bfsFuel g) [[a]] [a]).join with
        | none => rfl
        | some r =>
            obtain ⟨h1, -⟩ :=
              findPathAux_sound (bfsFuel g) [[a]] [a] [] (BfsInv.init g a none) hend r
                (Option.join_eq_some.mp hj)
            exact absurd ⟨r.path, h1⟩ hnex

/-- C5. Bounded `shortestPath(a, b, maxHops = k)` (distinct endpoints,
`k ≥ 1`): it returns `null` exactly when every walk from `a` to `b` has
more than `k` hops (node count above `k + 1`) — including when none
exists — and whenever some walk fits the bound it returns exactly what
the unbounded search returns (its minimal path).  Not-found under the
bound thus only arises from search-space exhaustion, never early cutoff. -/
theorem C5_findPath_bounded (g : ChannelGraph) (a b : String) (k : Nat)
    (hab : a ≠ b) (hk : 1 ≤ k) :
    (g.findPath a b (some k) = none ↔
      ¬ ∃ q, WalkFromTo g a b q ∧ q.length ≤ k + 1) ∧
    (∀ q, WalkFromTo g a b q → q.length ≤ k + 1 →
      g.findPath a b (some k) = g.findPath a b none) := by
  have hend : b ∉ [a] := b_not_visited_init hab
  have hfp : g.findPath a b (some k) =
      (findPathAux g b (some k) (bfsFuel g) [[a]] [a]).join := by
    rw [ChannelGraph.findPath, if_neg hab]
  have hfp' : g.findPath a b none =
      (findPathAux g b none (bfsFuel g) [[a]] [a]).join := by
    rw [ChannelGraph.findPath, if_neg hab]
  constructor
  · rw [hfp]
    constructor
    · intro hnone hex
      obtain ⟨q, hq, hql⟩ := hex
      obtain ⟨r, hr⟩ :=
        findPathAux_complete (bfsFuel g) [[a]] [a] [] (BfsInv.init g a (some k)) hend
          (initial_fuel_ok g a) ⟨q, hq, hql⟩
      rw [hr] at hnone
      cases hnone
    · intro hnex
      cases hj : (findPathAux g b (some k) (bfsFuel g) [[a]] [a]).join with
      | none => rfl
      | some r =>
          obtain ⟨h1, -, h3, -⟩ :=
            findPathAux_sound (bfsFuel g) [[a]] [a] [] (BfsInv.init g a (some k)) hend r
              (Option.join_eq_some.mp hj)
          exact absurd ⟨r.path, h1, h3⟩ hnex
  · intro q hq hql
    obtain ⟨r, hr⟩ :=
      findPathAux_complete (bfsFuel g) [[a]] [a] [] (BfsInv.init g a (some k)) hend
        (initial_fuel_ok g a) ⟨q, hq, hql⟩
    have hr' := findPathAux_bounded_to_unbounded (bfsFuel g) [[a]] [a] []
      (BfsInv.init g a (some k)) r hr
    rw [hfp, hfp', hr, hr']

/-- C10. `findPath(a, a)` returns the zero-hop result `{path: [a],
links: []}` for every identifier `a` — known to the graph or not, with no
membership check — while `findPath(a, b)` for distinct identifiers that
are both unknown to the graph (no `channels` entry) returns `null`. -/
theorem C10_findPath_self_zero_hop (g : ChannelGraph) (a b : String)
    (mh : Option Nat) (hab : a ≠ b)
    (ha : mapGet g.channels a = none) (hb : mapGet g.channels b = none) :
    (∀ (c : String) (mh2 : Option Nat), g.findPath c c mh2 = some ⟨[c], []⟩) ∧
    g.findPath a b mh = none := by
  constructor
  · intro c mh2
    rw [ChannelGraph.findPath, if_pos rfl]
  · rw [ChannelGraph.findPath, if_neg hab]
    show (findPathAux g b mh (g.getTotalConnections + 1) [[a]] [a]).join = none
    rw [findPathAux_succ]
    have hget : ([a].getLast?.getD "") = a := rfl
    by_cases hexc : hopsExceeded [a].length mh = true
    · rw [if_pos hexc, findPathAux_nil]
      rfl
    · rw [if_neg hexc, hget, ha, findPathAux_nil]
      rfl

theorem findAllAux_nil {g : ChannelGraph} {k : Nat} {fuel : Nat}
    {visited : List String} {reachable : List (String × PathResult)} :
    findAllAux g k fuel [] visited reachable = some reachable := by
  rw [findAllAux]

theorem findAllAux_zero {g : ChannelGraph} {k : Nat} {p₀ : List String}
    {rest : List (List String)} {visited : List String}
    {reachable : List (String × PathResult)} :
    findAllAux g k 0 (p₀ :: rest) visited reachable = none := by
  rw [findAllAux]

theorem findAllAux_succ {g : ChannelGraph} {k : Nat} {fuel : Nat} {p₀ : List String}
    {rest : List (List String)} {visited : List String}
    {reachable : List (String × PathResult)} :
    findAllAux g k (fuel + 1) (p₀ :: rest) visited reachable =
      if k + 1 < p₀.length then
        findAllAux g k fuel rest visited reachable
      else
        match mapGet g.channels (p₀.getLast?.getD "") with
        | none => findAllAux g k fuel rest visited reachable
        | some cd =>
          match expandAllConns g p₀ cd.connections rest visited reachable with
          | (q', v', r') => findAllAux g k fuel q' v' r' := by
  rw [findAllAux]

/-- Invariant on the `reachable` accumulator of `findAllPathsWithinHops`:
every recorded entry is a minimal walk from `start` (not to `start`
itself) of node count at most `k + 2`, and every visited non-start node
has been recorded. -/
structure ReachInv (g : ChannelGraph) (start : String) (k : Nat)
    (visited : List String) (reachable : List (String × PathResult)) : Prop where
  rsound : ∀ kv ∈ reachable, kv.1 ≠ start ∧ WalkFromTo g start kv.1 kv.2.path ∧
    kv.2.links = g.buildLinks kv.2.path ∧ kv.2.path.length ≤ k + 2 ∧
    ∀ q, WalkFromTo g start kv.1 q → kv.2.path.length ≤ q.length
  rkeys : ∀ kv ∈ reachable, kv.1 ∈ visited
  rcomplete : ∀ v ∈ visited, v ≠ start → ∃ e, (v, e) ∈ reachable

theorem ReachInv.initial (g : ChannelGraph) (start : String) (k : Nat) :
    ReachInv g start k [start] [] := by
  refine ⟨?_, ?_, ?_⟩
  · intro kv hkv
    cases hkv
  · intro kv hkv
    cases hkv
  · intro v hv hne
    simp only [List.mem_singleton] at hv
    exact absurd hv hne

/-- Correctness of the `findAllPathsWithinHops` loop: with sufficient
fuel it terminates with a map whose entries are exactly the non-start
nodes reachable by a walk of node count at most `k + 2` (hop count at
most `k + 1`), each recorded with a genuinely minimal walk. -/
theorem findAllAux_spec {g : ChannelGraph} {start : String} {k : Nat} :
    ∀ (fuel : Nat) (queue : List (List String)) (visited : List String)
      (done : List (String × Nat)) (reachable : List (String × PathResult)),
      BfsInv g start (some (k + 1)) queue visited done →
      ReachInv g start k visited reachable →
      queue.length + (g.getTotalConnections + 1) ≤ fuel + visited.length →
      ∃ res, findAllAux g k fuel queue visited reachable = some res ∧
        (∀ kv ∈ res, kv.1 ≠ start ∧ WalkFromTo g start kv.1 kv.2.path ∧
          kv.2.links = g.buildLinks kv.2.path ∧ kv.2.path.length ≤ k + 2 ∧
          ∀ q, WalkFromTo g start kv.1 q → kv.2.path.length ≤ q.length) ∧
        (∀ w, w ≠ start → (∃ q, WalkFromTo g start w q ∧ q.length ≤ k + 2) →
          ∃ e, (w, e) ∈ res) := by
  intro fuel
  induction fuel with
  | zero =>
      intro queue visited done reachable inv rinv hfuel
      cases queue with
      | nil =>
          refine ⟨reachable, findAllAux_nil, rinv.rsound, ?_⟩
          intro w hws ⟨q, hq, hql⟩
          by_cases hv : w ∈ visited
          · exact rinv.rcomplete w hv hws
          · obtain ⟨p, hp, -⟩ := bfs_cover inv hq (by
              simp only [withinBPlus]
              omega) hv
            cases hp
      | cons p₀ rest =>
          have hvis := visited_length_le inv.nodupV inv.subV
          simp only [List.length_cons, Nat.zero_add] at hfuel
          omega
  | succ fuel ih =>
      intro queue visited done reachable inv rinv hfuel
      cases queue with
      | nil =>
          refine ⟨reachable, findAllAux_nil, rinv.rsound, ?_⟩
          intro w hws ⟨q, hq, hql⟩
          by_cases hv : w ∈ visited
          · exact rinv.rcomplete w hv hws
          · obtain ⟨p, hp, -⟩ := bfs_cover inv hq (by
              simp only [withinBPlus]
              omega) hv
            cases hp
      | cons p₀ rest =>
        rw [findAllAux_succ]
        split
        · next hexc =>
          have hnB : ¬ withinB (some (k + 1)) p₀.length := by
            simp only [withinB]
            omega
          refine ih rest visited _ reachable (inv.drop (Or.inl hnB)) rinv ?_
          simp only [List.length_cons] at hfuel
          omega
        · next hexc =>
          have hwB : withinB (some (k + 1)) p₀.length := by
            simp only [withinB]
            omega
          split
          · next hcd =>
              refine ih rest visited _ reachable (inv.drop (Or.inr hcd)) rinv ?_
              simp only [List.length_cons] at hfuel
              omega
          · next cd hcd =>
              obtain ⟨hh, hwalk, v₀, hlast, hv₀⟩ := inv.qsound p₀ (List.mem_cons_self _ _)
              have hgetD : p₀.getLast?.getD "" = v₀ := by rw [hlast]; rfl
              obtain ⟨ws, -, hallEq, hnd, hws, hcov⟩ :=
                enqueueConns_exists p₀ cd.connections rest visited
              have heq := hallEq g reachable rinv.rkeys
              rw [heq]
              have hconnw : ∀ w ∈ ws, hasConn g v₀ w := by
                intro w hw
                obtain ⟨-, c, hc, hto⟩ := hws w hw
                exact ⟨cd, by rw [← hgetD]; exact hcd, c, hc, hto⟩
              have hinv' := inv.expand hwB hcd hnd hws hcov
              have hrinv' : ReachInv g start k (visited ++ ws)
                  (reachable ++ ws.map (fun w =>
                    (w, ⟨p₀ ++ [w], g.buildLinks (p₀ ++ [w])⟩))) := by
                refine ⟨?_, ?_, ?_⟩
                · intro kv hkv
                  rcases List.mem_append.mp hkv with hkv | hkv
                  · exact rinv.rsound kv hkv
                  · rcases List.mem_map.mp hkv with ⟨w, hwmem, rfl⟩
                    obtain ⟨hwnv, -⟩ := hws w hwmem
                    have hwalkNew : WalkFromTo g start w (p₀ ++ [w]) := by
                      refine ⟨?_, List.getLast?_concat _,
                        hwalk.snoc hlast (hconnw w hwmem)⟩
                      rw [List.head?_append, hh]
                      rfl
                    have hwne : w ≠ start := by
                      intro hws'
                      exact hwnv (hws' ▸ inv.startMem)
                    refine ⟨hwne, hwalkNew, rfl, ?_, ?_⟩
                    · simp only [List.length_append, List.length_singleton, withinB] at hwB ⊢
                      omega
                    · intro q hq
                      by_cases hql : q.length ≤ k + 2
                      · obtain ⟨p, hp, t2, ht2ne, -, -, hlen2⟩ :=
                          bfs_cover inv hq (by
                            simp only [withinBPlus]
                            omega) hwnv
                        have hple : p₀.length ≤ p.length := by
                          rcases List.mem_cons.mp hp with rfl | hp'
                          · exact le_refl _
                          · exact (List.pairwise_cons.mp inv.sorted).1 p hp'
                        have ht2 : 1 ≤ t2.length := List.length_pos.mpr ht2ne
                        simp only [List.length_append, List.length_singleton]
                        omega
                      · simp only [withinB] at hwB
                        simp only [List.length_append, List.length_singleton]
                        omega
                · intro kv hkv
                  rcases List.mem_append.mp hkv with hkv | hkv
                  · exact List.mem_append_left _ (rinv.rkeys kv hkv)
                  · rcases List.mem_map.mp hkv with ⟨w, hwmem, rfl⟩
                    exact List.mem_append_right _ hwmem
                · intro v hv hvne
                  rcases List.mem_append.mp hv with hv | hv
                  · obtain ⟨e, he⟩ := rinv.rcomplete v hv hvne
                    exact ⟨e, List.mem_append_left _ he⟩
                  · exact ⟨⟨p₀ ++ [v], g.buildLinks (p₀ ++ [v])⟩,
                      List.mem_append_right _ (List.mem_map_of_mem _ hv)⟩
              refine ih _ _ _ _ hinv' hrinv' ?_
              simp only [List.length_cons, List.length_append, List.length_map] at hfuel ⊢
              omega

/-- A three-channel chain `A → B → C`, loaded exactly as `loadData` loads
two edge records. -/
def chainGraph : ChannelGraph :=
  (ChannelGraph.empty.addConnection "A" "B" "alpha" "beta" "linkAB" "dateAB").addConnection
    "B" "C" "beta" "gamma" "linkBC" "dateBC"

/-- C1 (counterexample). On the chain `A → B → C`,
`findAllPathsWithinHops("A", 1)` contains `C` even though `C` is at
shortest-path distance 2 from `A` (there is no connection `A → C`, and
`C ≠ A`), refuting the claim that the result holds exactly the nodes at
distance in `[1, maxHops]`: the loop records nodes on enqueue but prunes
only dequeued paths longer than `maxHops + 1`, so distance `maxHops + 1`
nodes slip in. -/
theorem C1_counterexample :
    (∃ kv ∈ chainGraph.findAllPathsWithinHops "A" 1, kv.1 = "C") ∧
    (∀ c ∈ ((mapGet chainGraph.channels "A").getD ⟨"", []⟩).connections, c.toC ≠ "C") ∧
    "C" ≠ "A" := by
  decide

/-- C1 (amended). For every graph, start id `a` and `maxHops = k ≥ 1`,
`findAllPathsWithinHops(a, k)` returns exactly the nodes whose true
shortest-path distance from `a` lies in `[1, k + 1]` — not `[1, k]` as
claimed: `a` itself never appears, every entry holds a genuine walk from
`a` of node count at most `k + 2` that is minimal among all walks from
`a` to that node (so each entry's hop count is the node's shortest-path
distance), and conversely every node distinct from `a` reachable by a
walk of at most `k + 1` hops is a key of the result. -/
theorem C1_findAllPathsWithinHops_amended (g : ChannelGraph) (a : String) (k : Nat)
    (hk : 1 ≤ k) :
    (∀ kv ∈ g.findAllPathsWithinHops a k, kv.1 ≠ a ∧
      WalkFromTo g a kv.1 kv.2.path ∧ kv.2.path.length ≤ k + 2 ∧
      ∀ q, WalkFromTo g a kv.1 q → kv.2.path.length ≤ q.length) ∧
    (∀ b, b ≠ a → (∃ q, WalkFromTo g a b q ∧ q.length ≤ k + 2) →
      ∃ e, (b, e) ∈ g.findAllPathsWithinHops a k) := by
  obtain ⟨res, hres, h1, h2⟩ := findAllAux_spec (bfsFuel g) [[a]] [a] [] []
    (BfsInv.init g a (some (k + 1))) (ReachInv.initial g a k) (initial_fuel_ok g a)
  have hall : g.findAllPathsWithinHops a k = res := by
    rw [ChannelGraph.findAllPathsWithinHops, hres]
    rfl
  rw [hall]
  refine ⟨?_, h2⟩
  intro kv hkv
  obtain ⟨ha1, ha2, -, ha4, ha5⟩ := h1 kv hkv
  exact ⟨ha1, ha2, ha4, ha5⟩

/-- C1 (amended, witness). The amended statement instantiated on the
chain `A → B → C` with `maxHops = 1`. -/
theorem C1_findAllPathsWithinHops_amended_witness :
    (1 ≤ 1) ∧
    ((∀ kv ∈ chainGraph.findAllPathsWithinHops "A" 1, kv.1 ≠ "A" ∧
        WalkFromTo chainGraph "A" kv.1 kv.2.path ∧ kv.2.path.length ≤ 1 + 2 ∧
        ∀ q, WalkFromTo chainGraph "A" kv.1 q → kv.2.path.length ≤ q.length) ∧
      (∀ b, b ≠ "A" →
        (∃ q, WalkFromTo chainGraph "A" b q ∧ q.length ≤ 1 + 2) →
        ∃ e, (b, e) ∈ chainGraph.findAllPathsWithinHops "A" 1)) :=
  ⟨by decide, C1_findAllPathsWithinHops_amended chainGraph "A" 1 (by decide)⟩

/-- C5 (witness). The bounded-search statement instantiated on the chain
`A → B → C` with `maxHops = 2`. -/
theorem C5_findPath_bounded_witness :
    ("A" ≠ "C") ∧ (1 ≤ 2) ∧
    ((chainGraph.findPath "A" "C" (some 2) = none ↔
        ¬ ∃ q, WalkFromTo chainGraph "A" "C" q ∧ q.length ≤ 2 + 1) ∧
      (∀ q, WalkFromTo chainGraph "A" "C" q → q.length ≤ 2 + 1 →
        chainGraph.findPath "A" "C" (some 2) = chainGraph.findPath "A" "C" none)) :=
  ⟨by decide, by decide, C5_findPath_bounded chainGraph "A" "C" 2 (by decide) (by decide)⟩

/-- C10 (witness). The self/unknown statement instantiated on the chain
graph with the unknown identifiers `X` and `Y`. -/
theorem C10_findPath_self_zero_hop_witness :
    ("X" ≠ "Y") ∧ (mapGet chainGraph.channels "X" = none) ∧
    (mapGet chainGraph.channels "Y" = none) ∧
    ((∀ (c : String) (mh2 : Option Nat),
        chainGraph.findPath c c mh2 = some ⟨[c], []⟩) ∧
      chainGraph.findPath "X" "Y" (some 6) = none) :=
  ⟨by decide, by decide, by decide,
    C10_findPath_self_zero_hop chainGraph "X" "Y" (some 6) (by decide) (by decide)
      (by decide)⟩

/-! ### The mention scanner (`index.js`, `scanChannelMessages`)

A channel scan paginates message history (modelled as the given list of
pages), extracts `<#ID>`-style mentions per message with the regex
`/<#([A-Z0-9]+)(?:\|[^>]*)?>/g`, discards self-mentions, and emits at
most one `EdgeRecord` per mentioned id thanks to the scan-local
`seenLinks` set.  The emitted list models the full ordered sequence of
records handed to `appendConnections` (batching in groups of five plus
the final flush preserves both order and content). -/

/-- A history message as consumed by the scanner: optional `text`
(absent or empty text is skipped — `if (message.text)`) and `ts`. -/
structure Message where
  text : Option String
  ts : String
deriving DecidableEq, Repr

/-- A character of the regex class `[A-Z0-9]`. -/
def isIdChar (c : Char) : Bool :=
  ('A' ≤ c && c ≤ 'Z') || ('0' ≤ c && c ≤ '9')

/-- One attempted match of `/<#([A-Z0-9]+)(?:\|[^>]*)?>/` at the head of
the input, returning the captured id and the rest of the input after the
match.  Greedy runs need no backtracking for this pattern: after the id
run the next char is never in `[A-Z0-9]`, and after `[^>]*` the next
char is never a non-`>`. -/
def tryMatch : List Char → Option (String × List Char)
  | '<' :: '#' :: cs =>
      (match List.span isIdChar cs with
       | (idRun, rest) =>
         if idRun.isEmpty then none
         else
           match rest with
           | '>' :: rest' => some (String.mk idRun, rest')
           | '|' :: rest' =>
               (match List.span (fun c => !(c == '>')) rest' with
                | (_, '>' :: rest'') => some (String.mk idRun, rest'')
                | _ => none)
           | _ => none)
  | _ => none

/-- The `text.matchAll(CHANNEL_MENTION_REGEX)` scan: try a match at each
position, resuming after a match (or one character later on failure).
Structured with a fuel argument equal to the input length, which
suffices because every step consumes at least one character. -/
def scanMentionsGo : Nat → List Char → List String
  | _, [] => []
  | 0, _ :: _ => []
  | fuel + 1, c :: cs =>
      match tryMatch (c :: cs) with
      | some (id, rest) => id :: scanMentionsGo fuel rest
      | none => scanMentionsGo fuel cs

/-- All channel ids captured by the mention regex over a text, in order. -/
def scanMentions (s : List Char) : List String :=
  scanMentionsGo s.length s

/-- One mention edge as built by the scanner and stored in the edge log:
string fields `from`, `to`, `fromName`, `toName`, `messageTs`,
`messageDate`, `messageLink` (`from`/`to` renamed `fromC`/`toC`; `from`
is a Lean keyword). -/
structure EdgeRecord where
  fromC : String
  toC : String
  fromName : String
  toName : String
  messageTs : String
  messageDate : String
  messageLink : String
deriving DecidableEq, Repr

/-- JS `ts.replace('.', '')` — a *string* pattern replaces only the first
occurrence. -/
def removeFirstDot : List Char → List Char
  | [] => []
  | c :: cs => if c = '.' then cs else c :: removeFirstDot cs

/-- The permalink built by the scanner:
`https://hackclub.slack.com/archives/${channelId}/p${ts.replace('.', '')}`. -/
def messageLinkOf (channelId ts : String) : String :=
  "https://hackclub.slack.com/archives/" ++ channelId ++ "/p" ++
    String.mk (removeFirstDot ts.data)

/-- The `connection` object built for a newly seen mention.  `dateFn`
abstracts `new Date(parseFloat(ts) * 1000).toISOString()` (host floating
point and calendar formatting, opaque to this model but a deterministic
function of `ts`). -/
def buildConnection (channelId channelName : String)
    (channelNames : List (String × String)) (dateFn : String → String)
    (ts mentionedChannelId : String) : EdgeRecord :=
  { fromC := channelId
    toC := mentionedChannelId
    fromName := channelName
    toName := (mapGet channelNames mentionedChannelId).getD mentionedChannelId
    messageTs := ts
    messageDate := dateFn ts
    messageLink := messageLinkOf channelId ts }

@[simp]
theorem buildConnection_toC (channelId channelName : String)
    (channelNames : List (String × String)) (dateFn : String → String)
    (ts mentionedChannelId : String) :
    (buildConnection channelId channelName channelNames dateFn ts
      mentionedChannelId).toC = mentionedChannelId := rfl

@[simp]
theorem buildConnection_fromC (channelId channelName : String)
    (channelNames : List (String × String)) (dateFn : String → String)
    (ts mentionedChannelId : String) :
    (buildConnection channelId channelName channelNames dateFn ts
      mentionedChannelId).fromC = channelId := rfl

/-- The scan-local mutable state: the `seenLinks` dedup set (insertion
order) and the ordered sequence of records pushed so far. -/
structure ScanAcc where
  seenLinks : List String
  out : List EdgeRecord
deriving DecidableEq, Repr

/-- The `for (const match of matches)` loop body: skip self-mentions,
skip already seen ids, otherwise record the id and push the record. -/
def processMentions (channelId channelName : String)
    (channelNames : List (String × String)) (dateFn : String → String)
    (ts : String) : List String → ScanAcc → ScanAcc
  | [], acc => acc
  | mid :: rest, acc =>
      if mid ≠ channelId then
        if mid ∉ acc.seenLinks then
          processMentions channelId channelName channelNames dateFn ts rest
            ⟨acc.seenLinks ++ [mid],
             acc.out ++ [buildConnection channelId channelName channelNames dateFn ts mid]⟩
        else processMentions channelId channelName channelNames dateFn ts rest acc
      else processMentions channelId channelName channelNames dateFn ts rest acc

/-- Processing one message: extract mentions when there is (truthy) text. -/
def processMessage (channelId channelName : String)
    (channelNames : List (String × String)) (dateFn : String → String)
    (m : Message) (acc : ScanAcc) : ScanAcc :=
  match m.text with
  | some t =>
      if t = "" then acc
      else processMentions channelId channelName channelNames dateFn m.ts
        (scanMentions t.data) acc
  | none => acc

/-- The records emitted by one channel scan session over the given pages
(in emission order). -/
def scanChannelRecords (channelId channelName : String)
    (channelNames : List (String × String)) (dateFn : String → String)
    (pages : List (List Message)) : List EdgeRecord :=
  (pages.flatten.foldl
    (fun acc m => processMessage channelId channelName channelNames dateFn m acc)
    ⟨[], []⟩).out

/-- Specification vocabulary: the stream of `(ts, mentioned id)`
occurrences in pagination order (pages, then messages, then matches). -/
def mentionStream (pages : List (List Message)) : List (String × String) :=
  pages.flatten.flatMap (fun m =>
    match m.text with
    | some t =>
        if t = "" then []
        else (scanMentions t.data).map (fun mid => (m.ts, mid))
    | none => [])

/-- The scan as a single fold over the mention stream (proof device). -/
def emitAll (channelId channelName : String)
    (channelNames : List (String × String)) (dateFn : String → String) :
    List (String × String) → ScanAcc → ScanAcc
  | [], acc => acc
  | (ts, mid) :: rest, acc =>
      if mid ≠ channelId then
        if mid ∉ acc.seenLinks then
          emitAll channelId channelName channelNames dateFn rest
            ⟨acc.seenLinks ++ [mid],
             acc.out ++ [buildConnection channelId channelName channelNames dateFn ts mid]⟩
        else emitAll channelId channelName channelNames dateFn rest acc
      else emitAll channelId channelName channelNames dateFn rest acc

theorem processMentions_eq_emitAll (channelId channelName : String)
    (channelNames : List (String × String)) (dateFn : String → String)
    (ts : String) :
    ∀ (mids : List String) (acc : ScanAcc),
      processMentions channelId channelName channelNames dateFn ts mids acc =
        emitAll channelId channelName channelNames dateFn
          (mids.map (fun mid => (ts, mid))) acc := by
  intro mids
  induction mids with
  | nil => intro acc; rfl
  | cons mid rest ih =>
      intro acc
      rw [List.map_cons, processMentions, emitAll]
      by_cases h1 : mid ≠ channelId
      · rw [if_pos h1, if_pos h1]
        by_cases h2 : mid ∉ acc.seenLinks
        · rw [if_pos h2, if_pos h2, ih]
        · rw [if_neg h2, if_neg h2, ih]
      · rw [if_neg h1, if_neg h1, ih]

theorem emitAll_append (channelId channelName : String)
    (channelNames : List (String × String)) (dateFn : String → String) :
    ∀ (s1 s2 : List (String × String)) (acc : ScanAcc),
      emitAll channelId channelName channelNames dateFn (s1 ++ s2) acc =
        emitAll channelId channelName channelNames dateFn s2
          (emitAll channelId channelName channelNames dateFn s1 acc) := by
  intro s1
  induction s1 with
  | nil => intro s2 acc; rfl
  | cons p rest ih =>
      intro s2 acc
      obtain ⟨ts, mid⟩ := p
      rw [List.cons_append, emitAll, emitAll]
      by_cases h1 : mid ≠ channelId
      · rw [if_pos h1, if_pos h1]
        by_cases h2 : mid ∉ acc.seenLinks
        · rw [if_pos h2, if_pos h2, ih]
        · rw [if_neg h2, if_neg h2, ih]
      · rw [if_neg h1, if_neg h1, ih]

/-- The nested scan loops equal the single fold over the mention stream. -/
theorem scan_eq_emitAll (channelId channelName : String)
    (channelNames : List (String × String)) (dateFn : String → String) :
    ∀ (msgs : List Message) (acc : ScanAcc),
      msgs.foldl
        (fun acc m => processMessage channelId channelName channelNames dateFn m acc)
        acc =
      emitAll channelId channelName channelNames dateFn
        (msgs.flatMap (fun m =>
          match m.text with
          | some t =>
              if t = "" then []
              else (scanMentions t.data).map (fun mid => (m.ts, mid))
          | none => [])) acc := by
  intro msgs
  induction msgs with
  | nil => intro acc; rfl
  | cons m ms ih =>
      intro acc
      rw [List.foldl_cons, List.flatMap_cons, emitAll_append, ih]
      congr 1
      cases htext : m.text with
      | none => simp only [processMessage, htext]; rfl
      | some t =>
          simp only [processMessage, htext]
          by_cases ht : t = ""
          · rw [if_pos ht, if_pos ht]
            rfl
          · rw [if_neg ht, if_neg ht,
              processMentions_eq_emitAll]

theorem scanChannelRecords_eq_emitAll (channelId channelName : String)
    (channelNames : List (String × String)) (dateFn : String → String)
    (pages : List (List Message)) :
    scanChannelRecords channelId channelName channelNames dateFn pages =
      (emitAll channelId channelName channelNames dateFn
        (mentionStream pages) ⟨[], []⟩).out := by
  rw [scanChannelRecords, scan_eq_emitAll, mentionStream]

theorem emitAll_out_mono (channelId channelName : String)
    (channelNames : List (String × String)) (dateFn : String → String) :
    ∀ (stream : List (String × String)) (acc : ScanAcc) (r : EdgeRecord),
      r ∈ acc.out →
      r ∈ (emitAll channelId channelName channelNames dateFn stream acc).out := by
  intro stream
  induction stream with
  | nil => intro acc r h; exact h
  | cons p rest ih =>
      intro acc r h
      obtain ⟨ts, mid⟩ := p
      rw [emitAll]
      by_cases h1 : mid ≠ channelId
      · rw [if_pos h1]
        by_cases h2 : mid ∉ acc.seenLinks
        · rw [if_pos h2]
          exact ih _ r (List.mem_append_left _ h)
        · rw [if_neg h2]
          exact ih _ r h
      · rw [if_neg h1]
        exact ih _ r h

theorem emitAll_nodup (channelId channelName : String)
    (channelNames : List (String × String)) (dateFn : String → String) :
    ∀ (stream : List (String × String)) (acc : ScanAcc),
      (acc.out.map (fun r => r.toC)).Nodup →
      (∀ r ∈ acc.out, r.toC ∈ acc.seenLinks) →
      ((emitAll channelId channelName channelNames dateFn stream acc).out.map
        (fun r => r.toC)).Nodup := by
  intro stream
  induction stream with
  | nil => intro acc h _; exact h
  | cons p rest ih =>
      intro acc hnd hcl
      obtain ⟨ts, mid⟩ := p
      rw [emitAll]
      by_cases h1 : mid ≠ channelId
      · rw [if_pos h1]
        by_cases h2 : mid ∉ acc.seenLinks
        · rw [if_pos h2]
          refine ih _ ?_ ?_
          · rw [List.map_append]
            refine List.nodup_append.mpr ⟨hnd, List.nodup_singleton _, ?_⟩
            intro a ha ha'
            simp only [List.map_cons, List.map_nil, List.mem_singleton,
              buildConnection_toC] at ha'
            rcases List.mem_map.mp ha with ⟨r, hr, rfl⟩
            exact h2 (ha' ▸ hcl r hr)
          · intro r hr
            rcases List.mem_append.mp hr with hr | hr
            · exact List.mem_append_left _ (hcl r hr)
            · simp only [List.mem_singleton] at hr
              subst hr
              simp
        · rw [if_neg h2]
          exact ih _ hnd hcl
      · rw [if_neg h1]
        exact ih _ hnd hcl

theorem emitAll_first_occ (channelId channelName : String)
    (channelNames : List (String × String)) (dateFn : String → String) :
    ∀ (stream : List (String × String)) (acc : ScanAcc),
      ∀ r ∈ (emitAll channelId channelName channelNames dateFn stream acc).out,
        r ∈ acc.out ∨ (r.toC ∉ acc.seenLinks ∧ r.toC ≠ channelId ∧
          ∃ ts, stream.find? (fun p => p.2 = r.toC) = some (ts, r.toC) ∧
            r = buildConnection channelId channelName channelNames dateFn ts r.toC) := by
  intro stream
  induction stream with
  | nil => intro acc r h; exact Or.inl h
  | cons p rest ih =>
      intro acc r h
      obtain ⟨ts, mid⟩ := p
      rw [emitAll] at h
      by_cases h1 : mid ≠ channelId
      · rw [if_pos h1] at h
        by_cases h2 : mid ∉ acc.seenLinks
        · rw [if_pos h2] at h
          rcases ih _ r h with hr | ⟨hns, hnc, ts', hfind, hbuild⟩
          · rcases List.mem_append.mp hr with hr | hr
            · exact Or.inl hr
            · simp only [List.mem_singleton] at hr
              subst hr
              refine Or.inr ⟨h2, h1, ts, ?_, rfl⟩
              exact List.find?_cons_of_pos _ (by simp)
          · refine Or.inr ⟨?_, hnc, ts', ?_, hbuild⟩
            · intro hmem
              exact hns (List.mem_append_left _ hmem)
            · have hne : r.toC ≠ mid := by
                intro hEq
                exact hns (List.mem_append_right _ (by simp [hEq]))
              rw [List.find?_cons_of_neg _ (by simpa using fun h' => hne h'.symm)]
              exact hfind
        · rw [if_neg h2] at h
          rcases ih _ r h with hr | ⟨hns, hnc, ts', hfind, hbuild⟩
          · exact Or.inl hr
          · refine Or.inr ⟨hns, hnc, ts', ?_, hbuild⟩
            have hne : r.toC ≠ mid := by
              intro hEq
              rw [hEq] at hns
              exact hns (by simpa using h2)
            rw [List.find?_cons_of_neg _ (by simpa using fun h' => hne h'.symm)]
            exact hfind
      · rw [if_neg h1] at h
        rcases ih _ r h with hr | ⟨hns, hnc, ts', hfind, hbuild⟩
        · exact Or.inl hr
        · refine Or.inr ⟨hns, hnc, ts', ?_, hbuild⟩
          have hmid : mid = channelId := by
            by_contra hmid
            exact h1 hmid
          have hne : r.toC ≠ mid := by
            rw [hmid]
            exact hnc
          rw [List.find?_cons_of_neg _ (by simpa using fun h' => hne h'.symm)]
          exact hfind

theorem emitAll_covers (channelId channelName : String)
    (channelNames : List (String × String)) (dateFn : String → String) :
    ∀ (stream : List (String × String)) (acc : ScanAcc),
      (∀ s ∈ acc.seenLinks, ∃ r ∈ acc.out, r.toC = s) →
      ∀ p ∈ stream, p.2 ≠ channelId →
        ∃ r ∈ (emitAll channelId channelName channelNames dateFn stream acc).out,
          r.toC = p.2 := by
  intro stream
  induction stream with
  | nil =>
      intro acc _ p hp
      cases hp
  | cons q rest ih =>
      intro acc hseen p hp hpne
      obtain ⟨ts, mid⟩ := q
      rw [emitAll]
      by_cases h1 : mid ≠ channelId
      · rw [if_pos h1]
        by_cases h2 : mid ∉ acc.seenLinks
        · rw [if_pos h2]
          have hseen' : ∀ s ∈ acc.seenLinks ++ [mid],
              ∃ r ∈ acc.out ++
                [buildConnection channelId channelName channelNames dateFn ts mid],
                r.toC = s := by
            intro s hs
            rcases List.mem_append.mp hs with hs | hs
            · obtain ⟨r, hr, hrs⟩ := hseen s hs
              exact ⟨r, List.mem_append_left _ hr, hrs⟩
            · simp only [List.mem_singleton] at hs
              exact ⟨buildConnection channelId channelName channelNames dateFn ts mid,
                List.mem_append_right _ (by simp), by simpa using hs.symm⟩
          rcases List.mem_cons.mp hp with rfl | hp'
          · obtain ⟨r, hr, hrs⟩ := hseen' mid (List.mem_append_right _ (by simp))
            exact ⟨r, emitAll_out_mono _ _ _ _ rest _ r hr, hrs⟩
          · exact ih _ hseen' p hp' hpne
        · rw [if_neg h2]
          rcases List.mem_cons.mp hp with rfl | hp'
          · obtain ⟨r, hr, hrs⟩ := hseen mid (by simpa using h2)
            exact ⟨r, emitAll_out_mono _ _ _ _ rest _ r hr, hrs⟩
          · exact ih _ hseen p hp' hpne
      · rw [if_neg h1]
        rcases List.mem_cons.mp hp with rfl | hp'
        · exact absurd (by simpa using h1) hpne
        · exact ih _ hseen p hp' hpne

/-- C6. Per-channel scan dedup: over any sequence of message pages, at
most one record is emitted per distinct `(from, to)` pair (all records
share `from = channelId`, and the emitted `to`-ids are pairwise
distinct); the record kept for an id is built from the *first* occurrence
of that id in pagination order (`find?` over the mention stream); and
every non-self mentioned id does get exactly its one record. -/
theorem C6_scan_dedup_first_occurrence (channelId channelName : String)
    (channelNames : List (String × String)) (dateFn : String → String)
    (pages : List (List Message)) :
    ((scanChannelRecords channelId channelName channelNames dateFn pages).map
      (fun r => r.toC)).Nodup ∧
    (∀ r ∈ scanChannelRecords channelId channelName channelNames dateFn pages,
      ∃ ts, (mentionStream pages).find? (fun p => p.2 = r.toC) = some (ts, r.toC) ∧
        r = buildConnection channelId channelName channelNames dateFn ts r.toC) ∧
    (∀ p ∈ mentionStream pages, p.2 ≠ channelId →
      ∃ r ∈ scanChannelRecords channelId channelName channelNames dateFn pages,
        r.toC = p.2) := by
  rw [scanChannelRecords_eq_emitAll]
  refine ⟨?_, ?_, ?_⟩
  · exact emitAll_nodup channelId channelName channelNames dateFn (mentionStream pages)
      ⟨[], []⟩ (by simp) (by intro r hr; cases hr)
  · intro r hr
    rcases emitAll_first_occ channelId channelName channelNames dateFn
      (mentionStream pages) ⟨[], []⟩ r hr with hmem | ⟨-, -, ts, hfind, hbuild⟩
    · cases hmem
    · exact ⟨ts, hfind, hbuild⟩
  · intro p hp hpne
    exact emitAll_covers channelId channelName channelNames dateFn (mentionStream pages)
      ⟨[], []⟩ (by intro s hs; cases hs) p hp hpne

/-- C7. No self-edges: every record emitted by a channel scan has
`from = channelId` and `to ≠ channelId` — self-mentions are discarded at
extraction time, before any record is constructed or buffered. -/
theorem C7_scan_no_self_mentions (channelId channelName : String)
    (channelNames : List (String × String)) (dateFn : String → String)
    (pages : List (List Message)) :
    ∀ r ∈ scanChannelRecords channelId channelName channelNames dateFn pages,
      r.fromC = channelId ∧ r.toC ≠ channelId := by
  rw [scanChannelRecords_eq_emitAll]
  intro r hr
  rcases emitAll_first_occ channelId channelName channelNames dateFn
    (mentionStream pages) ⟨[], []⟩ r hr with hmem | ⟨-, hnc, ts, -, hbuild⟩
  · cases hmem
  · refine ⟨?_, hnc⟩
    rw [hbuild]
    simp

/-- C7 (witness). A concrete scan containing a self-mention of `C0` and
two occurrences of `C1` emits just the `C0 → C1` record, which the
theorem certifies as a non-self edge. -/
theorem C7_scan_no_self_mentions_witness :
    (buildConnection "C0" "zero" [("C1", "one")] (fun _ => "date") "100.5" "C1" ∈
      scanChannelRecords "C0" "zero" [("C1", "one")] (fun _ => "date")
        [[⟨some "see <#C1> and <#C0|self> then <#C1> again", "100.5"⟩]]) ∧
    ((buildConnection "C0" "zero" [("C1", "one")] (fun _ => "date") "100.5" "C1").fromC
        = "C0" ∧
      (buildConnection "C0" "zero" [("C1", "one")] (fun _ => "date") "100.5" "C1").toC
        ≠ "C0") :=
  ⟨by decide,
    C7_scan_no_self_mentions "C0" "zero" [("C1", "one")] (fun _ => "date")
      [[⟨some "see <#C1> and <#C0|self> then <#C1> again", "100.5"⟩]]
      (buildConnection "C0" "zero" [("C1", "one")] (fun _ => "date") "100.5" "C1")
      (by decide)⟩

/-! ### The edge-record codec

`appendConnections` serialises each record with `JSON.stringify(conn)`
(one line, fixed key order `from, to, fromName, toName, messageTs,
messageDate, messageLink`, strings quoted per ECMA-262 QuoteJSONString);
`loadData` parses each stored line with `JSON.parse` and reads those
fields back.  The string quoting (`escChar`) and the string-literal /
object parsing below model those built-ins on exactly the record shapes
this program writes. -/

/-- Lowercase hex digit, as produced by the JSON UnicodeEscape. -/
def hexDigitChar (n : Nat) : Char :=
  if n < 10 then Char.ofNat (48 + n) else Char.ofNat (87 + n)

/-- ECMA-262 QuoteJSONString, per character: escape `"` and `\`,
named escapes for backspace/formfeed/newline/return/tab, `\u00xx` for the
remaining control characters, everything else literal. -/
def escChar (c : Char) : List Char :=
  if c = '"' then ['\\', '"']
  else if c = '\\' then ['\\', '\\']
  else if c.toNat = 8 then ['\\', 'b']
  else if c.toNat = 12 then ['\\', 'f']
  else if c.toNat = 10 then ['\\', 'n']
  else if c.toNat = 13 then ['\\', 'r']
  else if c.toNat = 9 then ['\\', 't']
  else if c.toNat < 32 then
    ['\\', 'u', '0', '0', hexDigitChar (c.toNat / 16), hexDigitChar (c.toNat % 16)]
  else [c]

/-- A JSON string literal: quoted, contents escaped. -/
def quoteJson (s : String) : List Char :=
  '"' :: s.data.flatMap escChar ++ ['"']

/-- `"key":"value"` (JSON.stringify emits no whitespace). -/
def serializeField (key value : String) : List Char :=
  quoteJson key ++ ':' :: quoteJson value

/-- The comma-separated field list of a stringified object. -/
def serializeObjectFields : List (String × String) → List Char
  | [] => []
  | [(k, v)] => serializeField k v
  | (k, v) :: kv2 :: kvs => serializeField k v ++ ',' :: serializeObjectFields (kv2 :: kvs)

/-- The key/value pairs of the `connection` object, in the object-literal
order of `scanChannelMessages`. -/
def edgeFields (r : EdgeRecord) : List (String × String) :=
  [("from", r.fromC), ("to", r.toC), ("fromName", r.fromName), ("toName", r.toName),
   ("messageTs", r.messageTs), ("messageDate", r.messageDate),
   ("messageLink", r.messageLink)]

/-- `JSON.stringify(conn)`: the one-line text form of an `EdgeRecord`. -/
def serializeEdge (r : EdgeRecord) : String :=
  String.mk ('{' :: serializeObjectFields (edgeFields r) ++ ['}'])

/-- Value of one hex digit (JSON.parse accepts both cases). -/
def hexVal (c : Char) : Option Nat :=
  if '0' ≤ c ∧ c ≤ '9' then some (c.toNat - 48)
  else if 'a' ≤ c ∧ c ≤ 'f' then some (c.toNat - 87)
  else if 'A' ≤ c ∧ c ≤ 'F' then some (c.toNat - 55)
  else none

/-- JSON named escapes. -/
def unescapeChar (c : Char) : Option Char :=
  if c = '"' then some '"'
  else if c = '\\' then some '\\'
  else if c = '/' then some '/'
  else if c = 'b' then some (Char.ofNat 8)
  else if c = 'f' then some (Char.ofNat 12)
  else if c = 'n' then some (Char.ofNat 10)
  else if c = 'r' then some (Char.ofNat 13)
  else if c = 't' then some (Char.ofNat 9)
  else none

/-- JSON string-literal body parser (after the opening quote): returns
the decoded contents and the input after the closing quote. -/
def parseJsonStringBody : List Char → Option (List Char × List Char)
  | [] => none
  | c :: rest =>
    if c = '"' then some ([], rest)
    else if c = '\\' then
      match rest with
      | [] => none
      | e :: rest2 =>
          if e = 'u' then
            match rest2 with
            | h1 :: h2 :: h3 :: h4 :: rest3 =>
                (match hexVal h1, hexVal h2, hexVal h3, hexVal h4 with
                 | some n1, some n2, some n3, some n4 =>
                     (match parseJsonStringBody rest3 with
                      | some (l, r) =>
                          some (Char.ofNat (((n1 * 16 + n2) * 16 + n3) * 16 + n4) :: l, r)
                      | none => none)
                 | _, _, _, _ => none)
            | _ => none
          else
            match unescapeChar e with
            | some ec =>
                (match parseJsonStringBody rest2 with
                 | some (l, r) => some (ec :: l, r)
                 | none => none)
            | none => none
    else
      match parseJsonStringBody rest with
      | some (l, r) => some (c :: l, r)
      | none => none

/-- Expect an exact literal prefix, returning the remaining input. -/
def parseLit : List Char → List Char → Option (List Char)
  | [], s => some s
  | _ :: _, [] => none
  | c :: cs, d :: ds => if d = c then parseLit cs ds else none

/-- Parse `"key":"value"` with the given key, returning the value. -/
def parseField (key : String) (s : List Char) : Option (String × List Char) :=
  match parseLit ('"' :: key.data ++ ['"', ':', '"']) s with
  | some s1 =>
      (match parseJsonStringBody s1 with
       | some (v, s2) => some (String.mk v, s2)
       | none => none)
  | none => none

/-- Parse a comma-separated list of string-valued fields with the given
keys, returning the values in key order. -/
def parseObjectFields : List String → List Char → Option (List String × List Char)
  | [], s => some ([], s)
  | [k], s =>
      (match parseField k s with
       | some (v, s1) => some ([v], s1)
       | none => none)
  | k :: k2 :: ks, s =>
      (match parseField k s with
       | some (v, s1) =>
           (match parseLit [','] s1 with
            | some s2 =>
                (match parseObjectFields (k2 :: ks) s2 with
                 | some (vs, s3) => some (v :: vs, s3)
                 | none => none)
            | none => none)
       | none => none)

/-- `JSON.parse` of one stored edge-log line, reading back the seven
string fields of an `EdgeRecord` (the shape this program's serializer
writes). -/
def parseEdgeLine (line : String) : Option EdgeRecord :=
  match parseLit ['{'] line.data with
  | some s0 =>
      (match parseObjectFields
          ["from", "to", "fromName", "toName", "messageTs", "messageDate", "messageLink"]
          s0 with
       | some ([f, t, fn, tn, mts, md, ml], s7) =>
           (match parseLit ['}'] s7 with
            | some s8 => if s8.isEmpty then some ⟨f, t, fn, tn, mts, md, ml⟩ else none
            | none => none)
       | _ => none)
  | none => none

theorem parseLit_append : ∀ (p s : List Char), parseLit p (p ++ s) = some s := by
  intro p
  induction p with
  | nil => intro s; rfl
  | cons c cs ih =>
      intro s
      rw [List.cons_append, parseLit, if_pos rfl, ih]

theorem hexVal_hexDigitChar : ∀ n < 16, hexVal (hexDigitChar n) = some n := by
  intro n h
  interval_cases n <;> decide

theorem parse_quote : ∀ (r : List Char), parseJsonStringBody ('"' :: r) = some ([], r) := by
  intro r
  rw [parseJsonStringBody.eq_def]
  simp

/-- Parsing a `\u00xx` escape recovers the control character. -/
theorem parse_unicode (n : Nat) (hn : n < 32) (tail : List Char) :
    parseJsonStringBody ('\\' :: 'u' :: '0' :: '0' ::
        hexDigitChar (n / 16) :: hexDigitChar (n % 16) :: tail) =
      (match parseJsonStringBody tail with
       | some (l, r) => some (Char.ofNat n :: l, r)
       | none => none) := by
  interval_cases n <;> rfl

/-- Parsing inverts per-character escaping. -/
theorem parseJsonStringBody_escChar (c : Char) (tail : List Char) :
    parseJsonStringBody (escChar c ++ tail) =
      (match parseJsonStringBody tail with
       | some (l, r) => some (c :: l, r)
       | none => none) := by
  by_cases h1 : c = '"'
  · subst h1
    show parseJsonStringBody ('\\' :: '"' :: tail) = _
    rw [parseJsonStringBody.eq_def]
    simp [unescapeChar]
  · by_cases h2 : c = '\\'
    · subst h2
      show parseJsonStringBody ('\\' :: '\\' :: tail) = _
      rw [parseJsonStringBody.eq_def]
      simp [unescapeChar]
    · by_cases h3 : c.toNat = 8
      · obtain rfl : c = Char.ofNat 8 := by rw [← h3, Char.ofNat_toNat]
        show parseJsonStringBody ('\\' :: 'b' :: tail) = _
        rw [parseJsonStringBody.eq_def]
        simp [unescapeChar]
      · by_cases h4 : c.toNat = 12
        · obtain rfl : c = Char.ofNat 12 := by rw [← h4, Char.ofNat_toNat]
          show parseJsonStringBody ('\\' :: 'f' :: tail) = _
          rw [parseJsonStringBody.eq_def]
          simp [unescapeChar]
        · by_cases h5 : c.toNat = 10
          · obtain rfl : c = Char.ofNat 10 := by rw [← h5, Char.ofNat_toNat]
            show parseJsonStringBody ('\\' :: 'n' :: tail) = _
            rw [parseJsonStringBody.eq_def]
            simp [unescapeChar]
          · by_cases h6 : c.toNat = 13
            · obtain rfl : c = Char.ofNat 13 := by rw [← h6, Char.ofNat_toNat]
              show parseJsonStringBody ('\\' :: 'r' :: tail) = _
              rw [parseJsonStringBody.eq_def]
              simp [unescapeChar]
            · by_cases h7 : c.toNat = 9
              · obtain rfl : c = Char.ofNat 9 := by rw [← h7, Char.ofNat_toNat]
                show parseJsonStringBody ('\\' :: 't' :: tail) = _
                rw [parseJsonStringBody.eq_def]
                simp [unescapeChar]
              · by_cases h8 : c.toNat < 32
                · rw [escChar, if_neg h1, if_neg h2, if_neg h3, if_neg h4, if_neg h5,
                    if_neg h6, if_neg h7, if_pos h8]
                  show parseJsonStringBody
                    ('\\' :: 'u' :: '0' :: '0' ::
                      hexDigitChar (c.toNat / 16) :: hexDigitChar (c.toNat % 16) :: tail) = _
                  rw [parse_unicode c.toNat h8 tail, Char.ofNat_toNat]
                · rw [escChar, if_neg h1, if_neg h2, if_neg h3, if_neg h4, if_neg h5,
                    if_neg h6, if_neg h7, if_neg h8]
                  show parseJsonStringBody (c :: tail) = _
                  cases tail with
                  | nil =>
                      rw [parseJsonStringBody.eq_def]
                      simp only [if_neg h1, if_neg h2]
                  | cons d ds =>
                      rw [parseJsonStringBody.eq_def]
                      simp only [if_neg h1, if_neg h2]

/-- Parsing a quoted, escaped string finds exactly the original
contents and stops at the closing quote. -/
theorem parseJsonStringBody_quoted (s : String) :
    ∀ (rest : List Char),
      parseJsonStringBody (s.data.flatMap escChar ++ '"' :: rest) = some (s.data, rest) := by
  have main : ∀ (l : List Char) (rest : List Char),
      parseJsonStringBody (l.flatMap escChar ++ '"' :: rest) = some (l, rest) := by
    intro l
    induction l with
    | nil => intro rest; simpa using parse_quote rest
    | cons c cs ih =>
        intro rest
        rw [List.flatMap_cons, List.append_assoc, parseJsonStringBody_escChar, ih]
  exact main s.data

theorem parseField_serialize (key value : String)
    (hkey : key.data.flatMap escChar = key.data) (rest : List Char) :
    parseField key (serializeField key value ++ rest) = some (value, rest) := by
  have hsplit : serializeField key value ++ rest =
      ('"' :: key.data ++ ['"', ':', '"']) ++ (value.data.flatMap escChar ++ '"' :: rest) := by
    rw [serializeField, quoteJson, quoteJson, hkey]
    simp
  rw [parseField, hsplit, parseLit_append]
  show (match parseJsonStringBody (value.data.flatMap escChar ++ '"' :: rest) with
        | some (v, s2) => some (String.mk v, s2)
        | none => none) = some (value, rest)
  rw [parseJsonStringBody_quoted]

theorem parseLit_comma (s : List Char) : parseLit [','] (',' :: s) = some s := rfl

/-- Parsing a serialised field list recovers exactly the values, in key
order (all the keys this program uses serialise to themselves). -/
theorem parseObjectFields_serialize :
    ∀ (kvs : List (String × String)),
      (∀ kv ∈ kvs, kv.1.data.flatMap escChar = kv.1.data) →
      ∀ (rest : List Char),
        parseObjectFields (kvs.map Prod.fst) (serializeObjectFields kvs ++ rest) =
          some (kvs.map Prod.snd, rest) := by
  intro kvs
  induction kvs with
  | nil => intro _ rest; rfl
  | cons kv kvs ih =>
      intro hkeys rest
      obtain ⟨k, v⟩ := kv
      cases kvs with
      | nil =>
          have hk := hkeys (k, v) (List.mem_singleton_self _)
          show parseObjectFields [k] (serializeField k v ++ rest) = some ([v], rest)
          show (match parseField k (serializeField k v ++ rest) with
                | some (v, s1) => some ([v], s1)
                | none => none) = some ([v], rest)
          rw [parseField_serialize k v hk rest]
      | cons kv2 kvs' =>
          have hk := hkeys (k, v) (List.mem_cons_self _ _)
          have hassoc : serializeObjectFields ((k, v) :: kv2 :: kvs') ++ rest =
              serializeField k v ++
                (',' :: (serializeObjectFields (kv2 :: kvs') ++ rest)) := by
            show (serializeField k v ++ ',' :: serializeObjectFields (kv2 :: kvs')) ++ rest = _
            simp
          rw [hassoc]
          show (match parseField k
                  (serializeField k v ++ ',' :: (serializeObjectFields (kv2 :: kvs') ++ rest)) with
                | some (v, s1) =>
                    (match parseLit [','] s1 with
                     | some s2 =>
                         (match parseObjectFields ((kv2 :: kvs').map Prod.fst) s2 with
                          | some (vs, s3) => some (v :: vs, s3)
                          | none => none)
                     | none => none)
                | none => none) = some (v :: (kv2 :: kvs').map Prod.snd, rest)
          rw [parseField_serialize k v hk _]
          show (match parseLit [','] (',' :: (serializeObjectFields (kv2 :: kvs') ++ rest)) with
                | some s2 =>
                    (match parseObjectFields ((kv2 :: kvs').map Prod.fst) s2 with
                     | some (vs, s3) => some (v :: vs, s3)
                     | none => none)
                | none => none) = some (v :: (kv2 :: kvs').map Prod.snd, rest)
          rw [parseLit_comma]
          show (match parseObjectFields ((kv2 :: kvs').map Prod.fst)
                  (serializeObjectFields (kv2 :: kvs') ++ rest) with
                | some (vs, s3) => some (v :: vs, s3)
                | none => none) = some (v :: (kv2 :: kvs').map Prod.snd, rest)
          rw [ih (fun kv hkv => hkeys kv (List.mem_cons_of_mem _ hkv)) rest]

/-- C8. Codec round-trip: serialising an `EdgeRecord` (arbitrary string
fields) with `JSON.stringify` and parsing the stored line back with
`JSON.parse` recovers the record field for field; and the serialised
form really is one line (it contains no newline character — a newline in
a field value is escaped as `\n`). -/
theorem C8_edgeRecord_roundtrip (r : EdgeRecord) :
    parseEdgeLine (serializeEdge r) = some r ∧
    ∀ c ∈ (serializeEdge r).data, c ≠ '\n' := by
  constructor
  · have hkeys : ∀ kv ∈ edgeFields r, kv.1.data.flatMap escChar = kv.1.data := by
      intro kv hkv
      simp only [edgeFields, List.mem_cons, List.not_mem_nil, or_false] at hkv
      rcases hkv with rfl | rfl | rfl | rfl | rfl | rfl | rfl <;> (dsimp only; decide)
    have h := parseObjectFields_serialize (edgeFields r) hkeys ['}']
    have hb : parseLit ['{'] (serializeEdge r).data =
        some (serializeObjectFields (edgeFields r) ++ ['}']) := rfl
    rw [parseEdgeLine, hb]
    show (match parseObjectFields
            ["from", "to", "fromName", "toName", "messageTs", "messageDate", "messageLink"]
            (serializeObjectFields (edgeFields r) ++ ['}']) with
          | some ([f, t, fn, tn, mts, md, ml], s7) =>
              (match parseLit ['}'] s7 with
               | some s8 => if s8.isEmpty then some ⟨f, t, fn, tn, mts, md, ml⟩ else none
               | none => none)
          | _ => none) = some r
    rw [show parseObjectFields
          ["from", "to", "fromName", "toName", "messageTs", "messageDate", "messageLink"]
          (serializeObjectFields (edgeFields r) ++ ['}']) =
        some ([r.fromC, r.toC, r.fromName, r.toName, r.messageTs, r.messageDate,
          r.messageLink], ['}']) from h]
    rfl
  · -- no newline: every character of the serialised line is either a
    -- structural character, a key character, or produced by `escChar`
    have hhex : ∀ n < 16, hexDigitChar n ≠ '\n' := by
      intro n h
      interval_cases n <;> decide
    have hesc : ∀ (c' : Char), ∀ c ∈ escChar c', c ≠ '\n' := by
      intro c'
      rw [escChar]
      split_ifs with h1 h2 h3 h4 h5 h6 h7 h8
      · intro c hc
        simp only [List.mem_cons, List.not_mem_nil, or_false] at hc
        rcases hc with rfl | rfl <;> decide
      · intro c hc
        simp only [List.mem_cons, List.not_mem_nil, or_false] at hc
        rcases hc with rfl | rfl <;> decide
      · intro c hc
        simp only [List.mem_cons, List.not_mem_nil, or_false] at hc
        rcases hc with rfl | rfl <;> decide
      · intro c hc
        simp only [List.mem_cons, List.not_mem_nil, or_false] at hc
        rcases hc with rfl | rfl <;> decide
      · intro c hc
        simp only [List.mem_cons, List.not_mem_nil, or_false] at hc
        rcases hc with rfl | rfl <;> decide
      · intro c hc
        simp only [List.mem_cons, List.not_mem_nil, or_false] at hc
        rcases hc with rfl | rfl <;> decide
      · intro c hc
        simp only [List.mem_cons, List.not_mem_nil, or_false] at hc
        rcases hc with rfl | rfl <;> decide
      · intro c hc
        simp only [List.mem_cons, List.not_mem_nil, or_false] at hc
        rcases hc with rfl | rfl | rfl | rfl | rfl | rfl
        · decide
        · decide
        · decide
        · decide
        · exact hhex _ (by omega)
        · exact hhex _ (by omega)
      · intro c hc
        simp only [List.mem_cons, List.not_mem_nil, or_false] at hc
        subst hc
        intro hnc
        exact h5 (by rw [hnc]; rfl)
    have hquote : ∀ (s : String), ∀ c ∈ quoteJson s, c ≠ '\n' := by
      intro s c hc
      rw [quoteJson] at hc
      rcases List.mem_cons.mp hc with rfl | hc
      · decide
      · rcases List.mem_append.mp hc with hc | hc
        · rcases List.mem_flatMap.mp hc with ⟨c', -, hc⟩
          exact hesc c' c hc
        · simp only [List.mem_singleton] at hc
          subst hc
          decide
    have hfield : ∀ (k v : String), ∀ c ∈ serializeField k v, c ≠ '\n' := by
      intro k v c hc
      rw [serializeField] at hc
      rcases List.mem_append.mp hc with hc | hc
      · exact hquote k c hc
      · rcases List.mem_cons.mp hc with rfl | hc
        · decide
        · exact hquote v c hc
    have hSOF : ∀ (kvs : List (String × String)), ∀ c ∈ serializeObjectFields kvs,
        c ≠ '\n' := by
      intro kvs
      induction kvs with
      | nil => intro c hc; cases hc
      | cons kv kvs ih =>
          obtain ⟨k, v⟩ := kv
          cases kvs with
          | nil =>
              intro c hc
              exact hfield k v c hc
          | cons kv2 kvs' =>
              intro c hc
              replace hc : c ∈ serializeField k v ++
                  ',' :: serializeObjectFields (kv2 :: kvs') := hc
              rcases List.mem_append.mp hc with hc | hc
              · exact hfield k v c hc
              · rcases List.mem_cons.mp hc with rfl | hc
                · decide
                · exact ih c hc
    intro c hc
    replace hc : c ∈ '{' :: (serializeObjectFields (edgeFields r) ++ ['}']) := hc
    rcases List.mem_cons.mp hc with rfl | hc
    · decide
    · rcases List.mem_append.mp hc with hc | hc
      · exact hSOF _ c hc
      · simp only [List.mem_singleton] at hc
        subst hc
        decide

/-! ### Checkpoint store, resume index and crawl file effects

From `loadCheckpoint` / `saveCheckpoint` and the channel loop of
`mapChannelConnections` (`index.js`, mirrored in `src/cli/display.js` /
`src/bot/*`): the checkpoint is a whole-file JSON record, loading never
fails (missing or corrupt storage yields the `lastChannelIndex = -1`
sentinel), and a resumed run iterates channels from
`lastChannelIndex + 1`.  File effects of one crawl invocation are traced
to settle the debug-mode claims. -/

/-- The checkpoint record written by `saveCheckpoint` (`timestamp` is
host-clock output, an opaque string here). -/
structure Checkpoint where
  lastChannelIndex : Int
  lastChannelId : String
  lastMessageCount : Nat
  timestamp : String
deriving DecidableEq, Repr

/-- The record `saveCheckpoint(channelIndex, channelId, messageCount)`
writes.  It is saved after each completed channel and also mid-channel
every 10000 messages — in both cases carrying the *current* channel's
index. -/
def savedCheckpoint (channelIndex : Int) (channelId : String) (messageCount : Nat)
    (timestamp : String) : Checkpoint :=
  ⟨channelIndex, channelId, messageCount, timestamp⟩

/-- The sentinel `{ lastChannelIndex: -1, processedChannels: [] }`
returned when no checkpoint is loaded (only `lastChannelIndex` is ever
read downstream; the remaining fields are defaulted here). -/
def freshCheckpoint : Checkpoint := ⟨-1, "", 0, ""⟩

/-- The possible outcomes of `fs.readFile` + `JSON.parse` on the
checkpoint file. -/
inductive CheckpointRead where
  | missing
  | corrupt
  | ok (cp : Checkpoint)
deriving DecidableEq, Repr

/-- `loadCheckpoint()`: debug mode skips loading entirely; otherwise any
failure of read-and-parse is caught and the sentinel returned. -/
def loadCheckpoint (debug : Bool) (stored : CheckpointRead) : Checkpoint :=
  if debug then freshCheckpoint
  else
    match stored with
    | .ok cp => cp
    | .missing => freshCheckpoint
    | .corrupt => freshCheckpoint

/-- The channel indices visited by
`for (let i = startIndex; i < channels.length; i++)`. -/
def forIndices (i : Int) (n : Nat) : List Int :=
  if i < (n : Int) then i :: forIndices (i + 1) n else []
termination_by ((n : Int) - i).toNat
decreasing_by
  simp_wf
  omega

theorem mem_forIndices : ∀ (i : Int) (n : Nat) (j : Int),
    j ∈ forIndices i n ↔ i ≤ j ∧ j < (n : Int) := by
  intro i n
  induction i, n using forIndices.induct with
  | case1 i n hlt ih =>
      intro j
      rw [forIndices, if_pos hlt]
      constructor
      · intro hj
        rcases List.mem_cons.mp hj with rfl | hj
        · exact ⟨le_refl _, hlt⟩
        · have := (ih j).mp hj
          omega
      · intro ⟨h1, h2⟩
        by_cases hji : j = i
        · exact hji ▸ List.mem_cons_self _ _
        · exact List.mem_cons_of_mem _ ((ih j).mpr (by omega))
  | case2 i n hlt =>
      intro j
      rw [forIndices, if_neg hlt]
      simp only [List.not_mem_nil, false_iff]
      intro ⟨h1, h2⟩
      omega

/-- C9. `CheckpointStore.load` never fails: when the checkpoint file is
missing, or its contents cannot be read or parsed, `loadCheckpoint`
returns the no-progress sentinel (`lastChannelIndex = -1`) instead of
propagating the error, so a crawl with no checkpoint is indistinguishable
from a fresh start. -/
theorem C9_loadCheckpoint_never_fails :
    loadCheckpoint false .missing = freshCheckpoint ∧
    loadCheckpoint false .corrupt = freshCheckpoint ∧
    freshCheckpoint.lastChannelIndex = -1 :=
  ⟨rfl, rfl, rfl⟩

/-- C2 (counterexample). A mid-channel periodic checkpoint taken while
scanning channel index 5 records `lastChannelIndex = 5`; the next run
resumes at index 6, so index 5 — the channel recorded in the checkpoint —
is *not* re-scanned (with 10 channels it is simply skipped), refuting
the claim that the recorded channel is re-scanned from the beginning. -/
theorem C2_counterexample :
    (savedCheckpoint 5 "C05" 10000 "t").lastChannelIndex + 1 = 6 ∧
    5 ∉ forIndices ((savedCheckpoint 5 "C05" 10000 "t").lastChannelIndex + 1) 10 := by
  refine ⟨rfl, ?_⟩
  rw [mem_forIndices]
  rintro ⟨h1, -⟩
  simp only [savedCheckpoint] at h1
  omega

/-- C2 (amended). Resumption is at channel granularity: the resume index
is `checkpoint.lastChannelIndex + 1` (0 when no checkpoint exists or it
is corrupt), the resumed run visits exactly the channel indices from the
resume index up to the channel count, and every scanned channel is
scanned from the beginning of its history (the scan has no message-level
cursor).  The channel recorded in the checkpoint — including by a
mid-channel periodic checkpoint — is however *skipped*, not re-scanned:
scanning resumes with the following channel. -/
theorem C2_resume_at_channel_granularity :
    ((loadCheckpoint false .missing).lastChannelIndex + 1 = 0) ∧
    ((loadCheckpoint false .corrupt).lastChannelIndex + 1 = 0) ∧
    (∀ (cp : Checkpoint) (n : Nat) (j : Int),
      j ∈ forIndices (cp.lastChannelIndex + 1) n ↔
        cp.lastChannelIndex + 1 ≤ j ∧ j < (n : Int)) ∧
    (∀ (i : Int) (cid : String) (mc : Nat) (ts : String) (n : Nat),
      i ∉ forIndices ((savedCheckpoint i cid mc ts).lastChannelIndex + 1) n) := by
  refine ⟨rfl, rfl, fun cp n j => mem_forIndices _ n j, ?_⟩
  intro i cid mc ts n
  rw [mem_forIndices]
  rintro ⟨h1, -⟩
  simp only [savedCheckpoint] at h1
  omega

/-- File-system effects the crawl can perform. -/
inductive FsEffect where
  | readF (f : String)
  | writeF (f : String)
  | appendF (f : String)
  | unlinkF (f : String)
deriving DecidableEq, Repr

def OUTPUT_FILE : String := "channel-links.jsonl"
def CHECKPOINT_FILE : String := "checkpoint.json"
def CHANNELS_CACHE_FILE : String := "channels-cache.json"
def METADATA_FILE : String := "channel-metadata.json"

/-- Effects of `appendConnections`: nothing for an empty batch, stdout
only in debug mode, otherwise one append to the edge log. -/
def appendConnectionsFx (debug : Bool) (connections : List EdgeRecord) : List FsEffect :=
  if connections.length = 0 then []
  else if debug then []
  else [.appendF OUTPUT_FILE]

/-- Effects of `saveCheckpoint`: skipped entirely in debug mode. -/
def saveCheckpointFx (debug : Bool) : List FsEffect :=
  if debug then [] else [.writeF CHECKPOINT_FILE]

/-- Effects of `loadCheckpoint`: debug mode does not even read. -/
def loadCheckpointFx (debug : Bool) : List FsEffect :=
  if debug then [] else [.readF CHECKPOINT_FILE]

/-- Effects of `getAllChannels` — note they do *not* depend on the debug
flag: with `CLEAR_CHANNEL_CACHE` the cache file is deleted and, after
the API fetch, rewritten; otherwise a cache hit is one read, and a miss
is a failed read followed by a fetch and a cache write. -/
def getAllChannelsFx (clearCache cacheHit : Bool) : List FsEffect :=
  if clearCache then [.unlinkF CHANNELS_CACHE_FILE, .writeF CHANNELS_CACHE_FILE]
  else if cacheHit then [.readF CHANNELS_CACHE_FILE]
  else [.readF CHANNELS_CACHE_FILE, .writeF CHANNELS_CACHE_FILE]

/-- Effects of one channel scan, given the record batches it flushes and
how many mid-channel periodic checkpoints it takes.  (The real scan
interleaves appends and checkpoint writes; the claims only concern which
files are touched, so the trace lists appends first.) -/
def scanChannelMessagesFx (debug : Bool) (batches : List (List EdgeRecord))
    (periodicSaves : Nat) : List FsEffect :=
  (batches.map (appendConnectionsFx debug)).flatten ++
    ((List.range periodicSaves).map (fun _ => saveCheckpointFx debug)).flatten

/-- Effects of one `mapChannelConnections` crawl: checkpoint load,
channel listing, per-channel scan plus end-of-channel checkpoint, and —
only outside debug mode — the metadata export and checkpoint cleanup. -/
def mapChannelConnectionsFx (debug clearCache cacheHit : Bool)
    (channelScans : List (List (List EdgeRecord) × Nat)) : List FsEffect :=
  loadCheckpointFx debug ++
  getAllChannelsFx clearCache cacheHit ++
  (channelScans.map
    (fun sc => scanChannelMessagesFx debug sc.1 sc.2 ++ saveCheckpointFx debug)).flatten ++
  (if debug then [] else [.writeF METADATA_FILE, .unlinkF CHECKPOINT_FILE])

/-- C3 (counterexample). A debug-mode crawl with no pre-existing channel
cache still *creates* the channel cache file (`getAllChannels` ignores
the debug flag), so the claim that no file other than the transient
display stream is created or changed in debug mode is false. -/
theorem C3_counterexample :
    mapChannelConnectionsFx true false false [] =
      [.readF CHANNELS_CACHE_FILE, .writeF CHANNELS_CACHE_FILE] ∧
    FsEffect.writeF CHANNELS_CACHE_FILE ∈ mapChannelConnectionsFx true false false [] := by
  decide

/-- C3 (amended). In debug mode the crawl performs no edge-log append,
no checkpoint read, write or delete, and no metadata export — every
file effect it performs at all touches only the channels cache file
(which is still read, and may still be deleted and rewritten, exactly as
in a normal run). -/
theorem C3_debug_touches_only_channel_cache :
    ∀ (clearCache cacheHit : Bool) (channelScans : List (List (List EdgeRecord) × Nat)),
      ∀ e ∈ mapChannelConnectionsFx true clearCache cacheHit channelScans,
        e = .readF CHANNELS_CACHE_FILE ∨ e = .writeF CHANNELS_CACHE_FILE ∨
          e = .unlinkF CHANNELS_CACHE_FILE := by
  intro clearCache cacheHit channelScans e he
  have happend : ∀ (conns : List EdgeRecord), appendConnectionsFx true conns = [] := by
    intro conns
    rw [appendConnectionsFx]
    by_cases h : conns.length = 0
    · rw [if_pos h]
    · rw [if_neg h, if_pos rfl]
  have hscan : ∀ (batches : List (List EdgeRecord)) (saves : Nat),
      scanChannelMessagesFx true batches saves = [] := by
    intro batches saves
    rw [scanChannelMessagesFx]
    have h1 : batches.map (appendConnectionsFx true) = batches.map (fun _ => []) := by
      exact List.map_congr_left (fun b _ => happend b)
    have h2 : (List.range saves).map (fun _ => saveCheckpointFx true) =
        (List.range saves).map (fun _ => ([] : List FsEffect)) := rfl
    rw [h1, h2]
    simp
  have hchans : (channelScans.map
      (fun sc => scanChannelMessagesFx true sc.1 sc.2 ++ saveCheckpointFx true)).flatten =
      [] := by
    have hmap : channelScans.map
        (fun sc => scanChannelMessagesFx true sc.1 sc.2 ++ saveCheckpointFx true) =
        channelScans.map (fun _ => []) := by
      refine List.map_congr_left (fun sc _ => ?_)
      rw [hscan sc.1 sc.2]
      rfl
    rw [hmap]
    simp
  have htrace : mapChannelConnectionsFx true clearCache cacheHit channelScans =
      getAllChannelsFx clearCache cacheHit := by
    rw [mapChannelConnectionsFx, hchans]
    simp [loadCheckpointFx]
  rw [htrace] at he
  rw [getAllChannelsFx] at he
  by_cases h1 : clearCache = true
  · rw [if_pos h1] at he
    simp only [List.mem_cons, List.not_mem_nil, or_false] at he
    rcases he with rfl | rfl
    · exact Or.inr (Or.inr rfl)
    · exact Or.inr (Or.inl rfl)
  · rw [if_neg h1] at he
    by_cases h2 : cacheHit = true
    · rw [if_pos h2] at he
      simp only [List.mem_singleton] at he
      exact Or.inl he
    · rw [if_neg h2] at he
      simp only [List.mem_cons, List.not_mem_nil, or_false] at he
      rcases he with rfl | rfl
      · exact Or.inl rfl
      · exact Or.inr (Or.inl rfl)

/-- C3 (amended, witness). The amended statement applied to a concrete
debug run (cache miss, one scanned channel with one batch and one
periodic checkpoint), at its one effect, the cache read. -/
theorem C3_debug_touches_only_channel_cache_witness :
    (FsEffect.readF CHANNELS_CACHE_FILE ∈
      mapChannelConnectionsFx true false false [([[
        buildConnection "C0" "zero" [] (fun _ => "d") "1.2" "C1"]], 1)]) ∧
    (FsEffect.readF CHANNELS_CACHE_FILE = FsEffect.readF CHANNELS_CACHE_FILE ∨
      FsEffect.readF CHANNELS_CACHE_FILE = FsEffect.writeF CHANNELS_CACHE_FILE ∨
      FsEffect.readF CHANNELS_CACHE_FILE = FsEffect.unlinkF CHANNELS_CACHE_FILE) :=
  ⟨by decide,
    C3_debug_touches_only_channel_cache false false
      [([[buildConnection "C0" "zero" [] (fun _ => "d") "1.2" "C1"]], 1)]
      (FsEffect.readF CHANNELS_CACHE_FILE) (by decide)⟩

end SixDeg
